import Mathlib

/-!
Verification of the windowed-statistics engine of
`src/libkram/astc-encoder/astcenc_compute_variance.cpp`.

The development shallowly embeds, in exact arithmetic over `ℚ`:

* `brent_kung_prefix_sum` — the in-place Brent-Kung parallel prefix sum
  (source lines 51-103), modelled over an arbitrary additive commutative
  monoid of accumulators, with memory as a function `ℕ → M` and the
  `float4*` pointer as an explicit `base` index;
* the tile sampler, summed-area-table builder and windowed-stats
  extraction of `compute_pixel_region_variance` (source lines 113-606),
  for the 2D (`have_z == 0`) branches, parametric in the per-pixel
  sampled value;
* the per-pixel fetch/swizzle/power-curve paths for the three pixel
  formats (source lines 174-378);
* the tile-geometry setup and work-unit decoding of
  `init_compute_averages_and_variances` and
  `compute_averages_and_variances` (source lines 608-707).
-/

namespace AstcVariance

/-- Exact-arithmetic model of the `float4` SIMD vector: four rational
channels, indices 0,1,2,3 standing for r,g,b,a. -/
abbrev V4 : Type := Fin 4 → ℚ

section PrefixSum

variable {M : Type} [AddCommMonoid M]

/-- Pointwise in-place store `d[i] := v` (plain `ite`, so that it
evaluates in the kernel). -/
def upd (d : ℕ → M) (i : ℕ) (v : M) : ℕ → M := fun q => if q = i then v else d q

theorem upd_same (d : ℕ → M) (i : ℕ) (v : M) : upd d i v i = v := by simp [upd]

theorem upd_noteq (d : ℕ → M) (i q : ℕ) (v : M) (h : q ≠ i) : upd d i v q = d q := by
  simp [upd, h]

/-- One run of the inner `while (iters)` loop of `brent_kung_prefix_sum`
(source lines 72-77 and 96-101): starting at absolute element index
`pos`, repeatedly perform `d[pos] := d[pos] + d[pos - back]` and advance
`pos` by `skip`, `iters` times.  `back` models the negated pointer offset
`ofs`, and `skip` models `ofs_stride`. -/
def bk_chain (back skip : ℕ) : ℕ → ℕ → (ℕ → M) → (ℕ → M)
  | 0, _, d => d
  | iters + 1, pos, d =>
      bk_chain back skip iters (pos + skip) (upd d pos (d pos + d (pos - back)))

/-- One pass of the reduction-tree loop of `brent_kung_prefix_sum`
(source lines 63-81) with `lc_stride = 2 ^ s` (the loop maintains
`lc_stride = 2 ^ log2_stride` exactly): `step = 2 ^ (s-1)`,
`start = lc_stride - 1`, `iters = items >> s`, `ofs_stride = stride << s`.
`base` is the index the `float4* d` argument points at. -/
def bk_pass_up (base stride items s : ℕ) (d : ℕ → M) : ℕ → M :=
  bk_chain (2 ^ (s - 1) * stride) (stride * 2 ^ s) (items / 2 ^ s)
    (base + (2 ^ s - 1) * stride) d

/-- One pass of the expansion-tree loop of `brent_kung_prefix_sum`
(source lines 84-102) with `lc_stride = 2 ^ s`: `step = 2 ^ (s-1)`,
`start = step + lc_stride - 1`, `iters = (items - step) >> s`. -/
def bk_pass_down (base stride items s : ℕ) (d : ℕ → M) : ℕ → M :=
  bk_chain (2 ^ (s - 1) * stride) (stride * 2 ^ s) ((items - 2 ^ (s - 1)) / 2 ^ s)
    (base + (2 ^ (s - 1) + 2 ^ s - 1) * stride) d

/-- The reduction-tree do-while loop runs its body for
`lc_stride = 2, 4, ..., 2 ^ K` where `K = ⌊log2 items⌋` (it repeats while
the doubled `lc_stride` is still `≤ items`).  `bk_passes_up s` runs the
passes for `lc_stride = 2 ^ 1, ..., 2 ^ s` in that order. -/
def bk_passes_up (base stride items : ℕ) : ℕ → (ℕ → M) → (ℕ → M)
  | 0, d => d
  | s + 1, d => bk_pass_up base stride items (s + 1) (bk_passes_up base stride items s d)

/-- The expansion-tree do-while loop runs its body for
`lc_stride = 2 ^ K, ..., 2 ^ 1` (it decrements first and repeats while
`lc_stride > 2`).  `bk_passes_down s` runs the passes for
`lc_stride = 2 ^ s, ..., 2 ^ 1` in that order. -/
def bk_passes_down (base stride items : ℕ) : ℕ → (ℕ → M) → (ℕ → M)
  | 0, d => d
  | s + 1, d => bk_passes_down base stride items s (bk_pass_down base stride items (s + 1) d)

/-- Fuelled floor-log2 (structural recursion, so that it evaluates in the
kernel; the fuel is the argument itself, which always suffices). -/
def log2fuel : ℕ → ℕ → ℕ
  | 0, _ => 0
  | fuel + 1, n => if 2 ≤ n then log2fuel fuel (n / 2) + 1 else 0

/-- `⌊log2 n⌋` (0 for `n = 0`): the number of reduction-tree passes the
do-while loop of `brent_kung_prefix_sum` executes on `items = n ≥ 2`. -/
def floorLog2 (n : ℕ) : ℕ := log2fuel n n

/-- `brent_kung_prefix_sum` (source lines 51-103).  Memory is `d : ℕ → M`;
the `float4* d` pointer argument is the index `base`; `items` and `stride`
are as in the source.  Early-returns (leaving memory untouched) when
`items < 2`; otherwise runs the reduction-tree passes followed by the
expansion-tree passes. -/
def brent_kung_prefix_sum (d : ℕ → M) (base items stride : ℕ) : ℕ → M :=
  if items < 2 then d
  else bk_passes_down base stride items (floorLog2 items)
    (bk_passes_up base stride items (floorLog2 items) d)

theorem log2fuel_spec : ∀ fuel n, n ≤ fuel → 1 ≤ n →
    2 ^ log2fuel fuel n ≤ n ∧ n < 2 ^ (log2fuel fuel n + 1) := by
  intro fuel
  induction fuel with
  | zero => intro n h1 h2; omega
  | succ fuel ih =>
    intro n hn h1
    rw [log2fuel]
    by_cases h2 : 2 ≤ n
    · rw [if_pos h2]
      have hrec := ih (n / 2) (by omega) (by omega)
      constructor
      · calc 2 ^ (log2fuel fuel (n / 2) + 1) = 2 * 2 ^ (log2fuel fuel (n / 2)) := by ring
          _ ≤ 2 * (n / 2) := by omega
          _ ≤ n := by omega
      · calc n < 2 * (n / 2) + 2 := by omega
          _ ≤ 2 * 2 ^ (log2fuel fuel (n / 2) + 1) := by omega
          _ = 2 ^ (log2fuel fuel (n / 2) + 1 + 1) := by ring
    · rw [if_neg h2]
      have : n = 1 := by omega
      subst this
      simp

theorem floorLog2_spec (n : ℕ) (h : 1 ≤ n) :
    2 ^ floorLog2 n ≤ n ∧ n < 2 ^ (floorLog2 n + 1) :=
  log2fuel_spec n n le_rfl h

/-- The chained sequential updates of the inner while-loop have a simple
pointwise description whenever the backward read offset is smaller than
the forward step: no iteration reads a cell a previous iteration wrote. -/
theorem bk_chain_eq (back skip : ℕ) (hbs : back < skip) :
    ∀ (iters pos : ℕ) (d : ℕ → M),
      bk_chain back skip iters pos d =
        fun q => if ∃ k, k < iters ∧ q = pos + k * skip then d q + d (q - back) else d q := by
  intro iters
  induction iters with
  | zero =>
    intro pos d
    funext q
    simp [bk_chain]
  | succ iters ih =>
    intro pos d
    rw [bk_chain, ih]
    funext q
    by_cases hq : ∃ k, k < iters + 1 ∧ q = pos + k * skip
    · rw [if_pos hq]
      obtain ⟨k, hk, rfl⟩ := hq
      rcases Nat.eq_zero_or_pos k with hk0 | hk0
      · subst hk0
        have hnot : ¬ ∃ k, k < iters ∧ pos + 0 * skip = pos + skip + k * skip := by
          rintro ⟨k, -, he⟩; omega
        rw [if_neg hnot]
        simp [upd]
      · have hmem : ∃ j, j < iters ∧ pos + k * skip = pos + skip + j * skip := by
          refine ⟨k - 1, by omega, ?_⟩
          have : k * skip = skip + (k - 1) * skip := by
            have : k = 1 + (k - 1) := by omega
            calc k * skip = (1 + (k - 1)) * skip := by rw [← this]
              _ = skip + (k - 1) * skip := by ring
          omega
        rw [if_pos hmem]
        have h1 : pos + k * skip ≠ pos := by
          have : 1 * skip ≤ k * skip := Nat.mul_le_mul_right skip hk0
          omega
        have h2 : pos + k * skip - back ≠ pos := by
          have : 1 * skip ≤ k * skip := Nat.mul_le_mul_right skip hk0
          omega
        rw [upd_noteq _ _ _ _ h1, upd_noteq _ _ _ _ h2]
    · rw [if_neg hq]
      have hnot : ¬ ∃ k, k < iters ∧ q = pos + skip + k * skip := by
        rintro ⟨k, hk, rfl⟩
        exact hq ⟨k + 1, by omega, by ring⟩
      rw [if_neg hnot]
      have hne : q ≠ pos := by
        rintro rfl
        exact hq ⟨0, by omega, by ring⟩
      rw [upd_noteq _ _ _ _ hne]

theorem bk_chain_apply (back skip : ℕ) (hbs : back < skip) (iters pos : ℕ) (d : ℕ → M) (q : ℕ) :
    bk_chain back skip iters pos d q =
      if ∃ k, k < iters ∧ q = pos + k * skip then d q + d (q - back) else d q :=
  congrFun (bk_chain_eq back skip hbs iters pos d) q

theorem pos_sub (base σ b p : ℕ) (h : b ≤ p) :
    base + p * σ - b * σ = base + (p - b) * σ := by
  have h2 : p * σ = (p - b) * σ + b * σ := by
    conv_lhs => rw [show p = (p - b) + b from (Nat.sub_add_cancel h).symm]
    ring
  omega

theorem pos_inj (base σ : ℕ) (hσ : 1 ≤ σ) (p q : ℕ)
    (h : base + p * σ = base + q * σ) : p = q := by
  have hσ0 : 0 < σ := by omega
  have h2 : p * σ = q * σ := by omega
  exact Nat.eq_of_mul_eq_mul_right hσ0 h2

theorem mod_eq_zero_of_dvd (a b : ℕ) (h : a ∣ b) : b % a = 0 := by
  obtain ⟨c, rfl⟩ := h
  exact Nat.mul_mod_right a c

/-- A reduction-tree pass with `lc_stride = 2 ^ s` updates exactly the
elements `p < items` with `(p+1) % 2^s = 0`, adding the element
`2^(s-1)` places to their left. -/
theorem bk_pass_up_mem (base σ items s : ℕ) (d : ℕ → M) (hσ : 1 ≤ σ) (hs : 1 ≤ s)
    (p : ℕ) (hp : p < items) (hmod : (p + 1) % 2 ^ s = 0) :
    bk_pass_up base σ items s d (base + p * σ) =
      d (base + p * σ) + d (base + (p - 2 ^ (s - 1)) * σ) := by
  have hH : 1 ≤ 2 ^ (s - 1) := Nat.one_le_two_pow
  have hPH : 2 ^ s = 2 * 2 ^ (s - 1) := by
    conv_lhs => rw [show s = (s - 1) + 1 by omega]
    ring
  have hP : 1 ≤ 2 ^ s := Nat.one_le_two_pow
  have hbs : 2 ^ (s - 1) * σ < σ * 2 ^ s := by nlinarith
  rw [bk_pass_up, bk_chain_apply _ _ hbs]
  obtain ⟨m, hm⟩ := Nat.dvd_of_mod_eq_zero hmod
  have hm1 : 1 ≤ m := by
    rcases Nat.eq_zero_or_pos m with h | h
    · rw [h, mul_zero] at hm; omega
    · exact h
  have hmA : 2 ^ s * m = 2 ^ s * (m - 1) + 2 ^ s := by
    conv_lhs => rw [show m = (m - 1) + 1 by omega]
    ring
  set A := 2 ^ s * (m - 1) with hA
  have hpA : p = (2 ^ s - 1) + A := by omega
  have hmem : ∃ k, k < items / 2 ^ s ∧
      base + p * σ = base + (2 ^ s - 1) * σ + k * (σ * 2 ^ s) := by
    refine ⟨m - 1, ?_, ?_⟩
    · have h1 : 2 ^ s * m ≤ items := by omega
      rw [mul_comm] at h1
      have h2 := (Nat.le_div_iff_mul_le (by omega : 0 < 2 ^ s)).2 h1
      omega
    · rw [hpA, hA]; ring
  rw [if_pos hmem, pos_sub base σ _ p (by omega)]

theorem bk_pass_up_notmem (base σ items s : ℕ) (d : ℕ → M) (hσ : 1 ≤ σ) (hs : 1 ≤ s)
    (q : ℕ) (hq : ∀ p, p < items → (p + 1) % 2 ^ s = 0 → q ≠ base + p * σ) :
    bk_pass_up base σ items s d q = d q := by
  have hH : 1 ≤ 2 ^ (s - 1) := Nat.one_le_two_pow
  have hPH : 2 ^ s = 2 * 2 ^ (s - 1) := by
    conv_lhs => rw [show s = (s - 1) + 1 by omega]
    ring
  have hbs : 2 ^ (s - 1) * σ < σ * 2 ^ s := by nlinarith
  rw [bk_pass_up, bk_chain_apply _ _ hbs]
  rw [if_neg]
  rintro ⟨k, hk, rfl⟩
  have hkm : (k + 1) * 2 ^ s ≤ items := by
    have := (Nat.le_div_iff_mul_le (by omega : 0 < 2 ^ s)).1 (by omega : k + 1 ≤ items / 2 ^ s)
    omega
  set A := k * 2 ^ s with hA
  have hKA : (k + 1) * 2 ^ s = A + 2 ^ s := by rw [hA]; ring
  refine hq ((2 ^ s - 1) + A) (by omega) ?_ ?_
  · have : (2 ^ s - 1) + A + 1 = 2 ^ s * (k + 1) := by
      rw [hA]; have : 1 ≤ 2 ^ s := Nat.one_le_two_pow
      conv_rhs => rw [Nat.mul_add, Nat.mul_one, Nat.mul_comm]
      omega
    rw [this]
    exact Nat.mul_mod_right _ _
  · rw [hA]; ring

/-- An expansion-tree pass with `lc_stride = 2 ^ s` updates exactly the
elements `p < items` with `(p+1) % 2^s = 2^(s-1)` and `p + 1 ≠ 2^(s-1)`,
adding the element `2^(s-1)` places to their left. -/
theorem bk_pass_down_mem (base σ items s : ℕ) (d : ℕ → M) (hσ : 1 ≤ σ) (hs : 1 ≤ s)
    (p : ℕ) (hp : p < items) (hmod : (p + 1) % 2 ^ s = 2 ^ (s - 1))
    (hne : p + 1 ≠ 2 ^ (s - 1)) :
    bk_pass_down base σ items s d (base + p * σ) =
      d (base + p * σ) + d (base + (p - 2 ^ (s - 1)) * σ) := by
  have hH : 1 ≤ 2 ^ (s - 1) := Nat.one_le_two_pow
  have hPH : 2 ^ s = 2 * 2 ^ (s - 1) := by
    conv_lhs => rw [show s = (s - 1) + 1 by omega]
    ring
  have hbs : 2 ^ (s - 1) * σ < σ * 2 ^ s := by nlinarith
  rw [bk_pass_down, bk_chain_apply _ _ hbs]
  have hdm := Nat.div_add_mod (p + 1) (2 ^ s)
  set m := (p + 1) / 2 ^ s with hmd
  have hm : p + 1 = 2 ^ s * m + 2 ^ (s - 1) := by omega
  have hm1 : 1 ≤ m := by
    rcases Nat.eq_zero_or_pos m with h | h
    · rw [h, mul_zero] at hm; omega
    · exact h
  have hmA : 2 ^ s * m = 2 ^ s * (m - 1) + 2 ^ s := by
    conv_lhs => rw [show m = (m - 1) + 1 by omega]
    ring
  set A := 2 ^ s * (m - 1) with hA
  have hpA : p = (2 ^ (s - 1) + 2 ^ s - 1) + A := by omega
  have hmem : ∃ k, k < (items - 2 ^ (s - 1)) / 2 ^ s ∧
      base + p * σ = base + (2 ^ (s - 1) + 2 ^ s - 1) * σ + k * (σ * 2 ^ s) := by
    refine ⟨m - 1, ?_, ?_⟩
    · have h1 : 2 ^ s * m ≤ items - 2 ^ (s - 1) := by omega
      rw [mul_comm] at h1
      have h2 := (Nat.le_div_iff_mul_le (by omega : 0 < 2 ^ s)).2 h1
      omega
    · rw [hpA, hA]; ring
  rw [if_pos hmem, pos_sub base σ _ p (by omega)]

theorem bk_pass_down_notmem (base σ items s : ℕ) (d : ℕ → M) (hσ : 1 ≤ σ) (hs : 1 ≤ s)
    (q : ℕ) (hq : ∀ p, p < items → (p + 1) % 2 ^ s = 2 ^ (s - 1) → p + 1 ≠ 2 ^ (s - 1) →
      q ≠ base + p * σ) :
    bk_pass_down base σ items s d q = d q := by
  have hH : 1 ≤ 2 ^ (s - 1) := Nat.one_le_two_pow
  have hPH : 2 ^ s = 2 * 2 ^ (s - 1) := by
    conv_lhs => rw [show s = (s - 1) + 1 by omega]
    ring
  have hbs : 2 ^ (s - 1) * σ < σ * 2 ^ s := by nlinarith
  rw [bk_pass_down, bk_chain_apply _ _ hbs]
  rw [if_neg]
  rintro ⟨k, hk, rfl⟩
  have hkm : (k + 1) * 2 ^ s ≤ items - 2 ^ (s - 1) := by
    have := (Nat.le_div_iff_mul_le (by omega : 0 < 2 ^ s)).1
      (by omega : k + 1 ≤ (items - 2 ^ (s - 1)) / 2 ^ s)
    omega
  set A := k * 2 ^ s with hA
  have hKA : (k + 1) * 2 ^ s = A + 2 ^ s := by rw [hA]; ring
  refine hq ((2 ^ (s - 1) + 2 ^ s - 1) + A) (by omega) ?_ (by omega) ?_
  · have he : (2 ^ (s - 1) + 2 ^ s - 1) + A + 1 = 2 ^ (s - 1) + (k + 1) * 2 ^ s := by omega
    rw [he, Nat.add_mul_mod_self_right]
    exact Nat.mod_eq_of_lt (by omega)
  · rw [hA]; ring

theorem sum_Icc_merge (f : ℕ → M) (a m b : ℕ) (h1 : a ≤ m + 1) (h2 : m ≤ b) :
    ((∑ j ∈ Finset.Icc a m, f j) + ∑ j ∈ Finset.Icc (m + 1) b, f j)
      = ∑ j ∈ Finset.Icc a b, f j := by
  rcases Nat.lt_or_ge m a with hlt | hge
  · have ha : a = m + 1 := by omega
    rw [Finset.Icc_eq_empty (by omega), Finset.sum_empty, zero_add, ha]
  · rw [Nat.Icc_succ_left, ← Finset.sum_union ?hd]
    · have hu : Finset.Icc a m ∪ Finset.Ioc m b = Finset.Icc a b := by
        ext x
        simp only [Finset.mem_union, Finset.mem_Icc, Finset.mem_Ioc]
        omega
      rw [hu]
    case hd =>
      rw [Finset.disjoint_left]
      intro x hx hx2
      simp only [Finset.mem_Icc, Finset.mem_Ioc] at hx hx2
      omega

/-- Invariant after the reduction-tree passes for `lc_stride = 2^1 .. 2^s`:
element `p` holds the sum of the original elements over the window of
width `2 ^ min(v, s)` ending at `p`, where `2^v` is the largest power of
two dividing `p + 1`; all other memory is untouched. -/
def UpInv (base σ items : ℕ) (d0 d : ℕ → M) (s : ℕ) : Prop :=
  (∀ p, p < items → ∀ t, t ≤ s → (p + 1) % 2 ^ t = 0 →
      (t = s ∨ (p + 1) % 2 ^ (t + 1) ≠ 0) →
      d (base + p * σ) = ∑ j ∈ Finset.Icc (p + 1 - 2 ^ t) p, d0 (base + j * σ))
  ∧ ∀ q, (∀ p, p < items → q ≠ base + p * σ) → d q = d0 q

/-- Invariant after the expansion-tree passes for
`lc_stride = 2^K .. 2^s`: elements whose index is `≡ -1 (mod 2^(s-1))`
hold the full prefix sum; elements at strictly smaller tree levels still
hold their reduction-phase windows; all other memory is untouched. -/
def DownInv (base σ items : ℕ) (d0 d : ℕ → M) (s : ℕ) : Prop :=
  (∀ p, p < items → (p + 1) % 2 ^ (s - 1) = 0 →
      d (base + p * σ) = ∑ j ∈ Finset.Icc 0 p, d0 (base + j * σ))
  ∧ (∀ p, p < items → ∀ t, t + 1 < s → (p + 1) % 2 ^ t = 0 →
      (p + 1) % 2 ^ (t + 1) ≠ 0 →
      d (base + p * σ) = ∑ j ∈ Finset.Icc (p + 1 - 2 ^ t) p, d0 (base + j * σ))
  ∧ ∀ q, (∀ p, p < items → q ≠ base + p * σ) → d q = d0 q

theorem upInv_zero (base σ items : ℕ) (d0 : ℕ → M) :
    UpInv base σ items d0 d0 0 := by
  constructor
  · intro p hp t ht hmod hdisj
    have ht0 : t = 0 := by omega
    subst ht0
    simp
  · intro q hq; rfl

theorem upInv_step (base σ items : ℕ) (d0 d : ℕ → M) (hσ : 1 ≤ σ) (s : ℕ)
    (h : UpInv base σ items d0 d s) :
    UpInv base σ items d0 (bk_pass_up base σ items (s + 1) d) (s + 1) := by
  obtain ⟨h1, h2⟩ := h
  have hT : 1 ≤ 2 ^ s := Nat.one_le_two_pow
  have hT2 : 2 ^ (s + 1) = 2 * 2 ^ s := by ring
  constructor
  · intro p hp t ht hmod hdisj
    by_cases hw : (p + 1) % 2 ^ (s + 1) = 0
    · have ht' : t = s + 1 := by
        rcases hdisj with h | h
        · exact h
        · by_contra hne
          have htle : t + 1 ≤ s + 1 := by omega
          exact h (mod_eq_zero_of_dvd _ _
            (dvd_trans (pow_dvd_pow 2 htle) (Nat.dvd_of_mod_eq_zero hw)))
      subst ht'
      have hdvd2 : 2 ^ (s + 1) ∣ p + 1 := Nat.dvd_of_mod_eq_zero hw
      have hge : 2 ^ (s + 1) ≤ p + 1 := Nat.le_of_dvd (by omega) hdvd2
      rw [bk_pass_up_mem base σ items (s + 1) d hσ (by omega) p hp hw,
        show (s + 1) - 1 = s from by omega]
      set q := p - 2 ^ s with hqdef
      have hq1 : q + 1 = p + 1 - 2 ^ s := by omega
      have hms : (p + 1) % 2 ^ s = 0 :=
        mod_eq_zero_of_dvd _ _ (dvd_trans (pow_dvd_pow 2 (by omega)) hdvd2)
      have hvp := h1 p hp s le_rfl hms (Or.inl rfl)
      have hqs : (q + 1) % 2 ^ s = 0 := by
        have hd1 : (2:ℕ) ^ s ∣ p + 1 := dvd_trans (pow_dvd_pow 2 (by omega)) hdvd2
        apply mod_eq_zero_of_dvd
        rw [hq1]
        exact Nat.dvd_sub' hd1 dvd_rfl
      have hvq := h1 q (by omega) s le_rfl hqs (Or.inl rfl)
      rw [hvp, hvq,
        show p + 1 - 2 ^ s = q + 1 from by omega,
        show p + 1 - 2 ^ (s + 1) = q + 1 - 2 ^ s from by omega,
        ← sum_Icc_merge (fun j => d0 (base + j * σ)) (q + 1 - 2 ^ s) q p (by omega) (by omega)]
      exact add_comm _ _
    · have hnm : ∀ p', p' < items → (p' + 1) % 2 ^ (s + 1) = 0 →
          base + p * σ ≠ base + p' * σ := by
        intro p' hp' hmod' he
        have := pos_inj base σ hσ p p' he
        subst this
        exact hw hmod'
      rw [bk_pass_up_notmem base σ items (s + 1) d hσ (by omega) _ hnm]
      have ht2 : t ≤ s := by
        by_contra hcon
        have he : t = s + 1 := by omega
        rw [he] at hmod
        exact hw hmod
      have hdisj2 : t = s ∨ (p + 1) % 2 ^ (t + 1) ≠ 0 := by
        rcases hdisj with h | h
        · exfalso; rw [h] at hmod; exact hw hmod
        · exact Or.inr h
      exact h1 p hp t ht2 hmod hdisj2
  · intro q hq
    rw [bk_pass_up_notmem base σ items (s + 1) d hσ (by omega) q
      (fun p' hp' _ => hq p' hp')]
    exact h2 q hq

theorem downInv_init (base σ items : ℕ) (d0 d : ℕ → M) (K : ℕ)
    (hK1 : 2 ^ K ≤ items) (hK2 : items < 2 ^ (K + 1))
    (h : UpInv base σ items d0 d K) :
    DownInv base σ items d0 d (K + 1) := by
  obtain ⟨h1, h2⟩ := h
  refine ⟨?_, ?_, h2⟩
  · intro p hp hmod
    rw [show (K + 1) - 1 = K from by omega] at hmod
    have hdvd : 2 ^ K ∣ p + 1 := Nat.dvd_of_mod_eq_zero hmod
    have h2K : 2 ^ (K + 1) = 2 * 2 ^ K := by ring
    have heq : p + 1 = 2 ^ K := by
      obtain ⟨u, hu⟩ := hdvd
      rcases Nat.lt_or_ge u 2 with hcase | hcase
      · interval_cases u <;> omega
      · exfalso
        have h3 : 2 ^ K * 2 ≤ 2 ^ K * u := Nat.mul_le_mul_left _ hcase
        omega
    have hval := h1 p hp K le_rfl hmod (Or.inl rfl)
    rw [hval, show p + 1 - 2 ^ K = 0 from by omega]
  · intro p hp t ht hmod hmod2
    exact h1 p hp t (by omega) hmod (Or.inr hmod2)

theorem downInv_step (base σ items : ℕ) (d0 d : ℕ → M) (hσ : 1 ≤ σ) (s : ℕ) (hs : 1 ≤ s)
    (h : DownInv base σ items d0 d (s + 1)) :
    DownInv base σ items d0 (bk_pass_down base σ items s d) s := by
  obtain ⟨ha, hb, hf⟩ := h
  have hH : 1 ≤ 2 ^ (s - 1) := Nat.one_le_two_pow
  have hPH : 2 ^ s = 2 ^ (s - 1) * 2 := by
    conv_lhs => rw [show s = (s - 1) + 1 by omega]
    ring
  refine ⟨?_, ?_, ?_⟩
  · intro p hp hmod
    have hdvd : 2 ^ (s - 1) ∣ p + 1 := Nat.dvd_of_mod_eq_zero hmod
    obtain ⟨u, hu⟩ := hdvd
    have hmod2 : (p + 1) % 2 ^ s = 2 ^ (s - 1) * (u % 2) := by
      rw [hu, hPH, Nat.mul_mod_mul_left]
    rcases Nat.mod_two_eq_zero_or_one u with hu2 | hu2
    · rw [hu2, mul_zero] at hmod2
      have hnm : ∀ p', p' < items → (p' + 1) % 2 ^ s = 2 ^ (s - 1) →
          p' + 1 ≠ 2 ^ (s - 1) → base + p * σ ≠ base + p' * σ := by
        intro p' hp' hm' hn' he
        have := pos_inj base σ hσ p p' he
        subst this
        omega
      rw [bk_pass_down_notmem base σ items s d hσ hs _ hnm]
      apply ha p hp
      rw [show (s + 1) - 1 = s from by omega]
      exact hmod2
    · rw [hu2, mul_one] at hmod2
      have hple : 2 ^ (s - 1) ≤ p + 1 := by
        have := Nat.mod_le (p + 1) (2 ^ s)
        omega
      by_cases hone : p + 1 = 2 ^ (s - 1)
      · have hnm : ∀ p', p' < items → (p' + 1) % 2 ^ s = 2 ^ (s - 1) →
            p' + 1 ≠ 2 ^ (s - 1) → base + p * σ ≠ base + p' * σ := by
          intro p' hp' hm' hn' he
          have := pos_inj base σ hσ p p' he
          subst this
          exact hn' hone
        rw [bk_pass_down_notmem base σ items s d hσ hs _ hnm]
        have hval := hb p hp (s - 1) (by omega) hmod
          (by rw [show (s - 1) + 1 = s from by omega, hmod2]; omega)
        rw [hval, show p + 1 - 2 ^ (s - 1) = 0 from by omega]
      · rw [bk_pass_down_mem base σ items s d hσ hs p hp hmod2 hone]
        set q := p - 2 ^ (s - 1) with hqdef
        have hq1 : q + 1 = p + 1 - 2 ^ (s - 1) := by omega
        have hqmod : (q + 1) % 2 ^ s = 0 := by
          have hdm := Nat.div_add_mod (p + 1) (2 ^ s)
          rw [hmod2] at hdm
          have he : q + 1 = 2 ^ s * ((p + 1) / 2 ^ s) := by omega
          rw [he]
          exact Nat.mul_mod_right _ _
        have hvq := ha q (by omega)
          (by rw [show (s + 1) - 1 = s from by omega]; exact hqmod)
        have hvp := hb p hp (s - 1) (by omega) hmod
          (by rw [show (s - 1) + 1 = s from by omega, hmod2]; omega)
        rw [hvp, hvq, show p + 1 - 2 ^ (s - 1) = q + 1 from by omega,
          ← sum_Icc_merge (fun j => d0 (base + j * σ)) 0 q p (by omega) (by omega)]
        exact add_comm _ _
  · intro p hp t ht hmt hmt2
    have hnm : ∀ p', p' < items → (p' + 1) % 2 ^ s = 2 ^ (s - 1) →
        p' + 1 ≠ 2 ^ (s - 1) → base + p * σ ≠ base + p' * σ := by
      intro p' hp' hm' hn' he
      have := pos_inj base σ hσ p p' he
      subst this
      have hdm := Nat.div_add_mod (p + 1) (2 ^ s)
      rw [hm'] at hdm
      have hdvd : 2 ^ (t + 1) ∣ p + 1 := by
        have hx1 : (2:ℕ) ^ (t + 1) ∣ 2 ^ (s - 1) := pow_dvd_pow 2 (by omega)
        have hx2 : (2:ℕ) ^ (t + 1) ∣ 2 ^ s := pow_dvd_pow 2 (by omega)
        have he2 : p + 1 = 2 ^ s * ((p + 1) / 2 ^ s) + 2 ^ (s - 1) := by omega
        rw [he2]
        exact Nat.dvd_add (Dvd.dvd.mul_right hx2 _) hx1
      exact hmt2 (mod_eq_zero_of_dvd _ _ hdvd)
    rw [bk_pass_down_notmem base σ items s d hσ hs _ hnm]
    exact hb p hp t (by omega) hmt hmt2
  · intro q hq
    rw [bk_pass_down_notmem base σ items s d hσ hs q (fun p' hp' _ _ => hq p' hp')]
    exact hf q hq

theorem bk_passes_up_inv (base σ items : ℕ) (d0 : ℕ → M) (hσ : 1 ≤ σ) :
    ∀ s, UpInv base σ items d0 (bk_passes_up base σ items s d0) s := by
  intro s
  induction s with
  | zero => exact upInv_zero base σ items d0
  | succ s ih =>
    rw [bk_passes_up]
    exact upInv_step base σ items d0 _ hσ s ih

theorem bk_passes_down_inv (base σ items : ℕ) (d0 : ℕ → M) (hσ : 1 ≤ σ) :
    ∀ s (d : ℕ → M), DownInv base σ items d0 d (s + 1) →
      DownInv base σ items d0 (bk_passes_down base σ items s d) 1 := by
  intro s
  induction s with
  | zero => intro d h; exact h
  | succ s ih =>
    intro d h
    rw [bk_passes_down]
    exact ih _ (downInv_step base σ items d0 d hσ (s + 1) (by omega) h)

/-- Correctness of `brent_kung_prefix_sum`: in exact arithmetic, element
`i` of the strided sequence ends up holding the sum of the original
elements `0..i`. -/
theorem brent_kung_prefix_sum_correct (d : ℕ → M) (base items stride : ℕ)
    (hσ : 1 ≤ stride) (i : ℕ) (hi : i < items) :
    brent_kung_prefix_sum d base items stride (base + i * stride) =
      ∑ j ∈ Finset.Icc 0 i, d (base + j * stride) := by
  rw [brent_kung_prefix_sum]
  by_cases h2 : items < 2
  · rw [if_pos h2]
    have : i = 0 := by omega
    subst this
    simp
  · rw [if_neg h2]
    obtain ⟨hK1, hK2⟩ := floorLog2_spec items (by omega)
    have hup := bk_passes_up_inv base stride items d hσ (floorLog2 items)
    have hdn := bk_passes_down_inv base stride items d hσ (floorLog2 items) _
      (downInv_init base stride items d _ (floorLog2 items) hK1 hK2 hup)
    obtain ⟨ha, -, -⟩ := hdn
    exact ha i hi (by omega)

/-- Frame property of `brent_kung_prefix_sum`: memory outside the `items`
strided elements starting at `base` is untouched. -/
theorem brent_kung_prefix_sum_frame (d : ℕ → M) (base items stride : ℕ)
    (hσ : 1 ≤ stride) (q : ℕ) (hq : ∀ p, p < items → q ≠ base + p * stride) :
    brent_kung_prefix_sum d base items stride q = d q := by
  rw [brent_kung_prefix_sum]
  by_cases h2 : items < 2
  · rw [if_pos h2]
  · rw [if_neg h2]
    obtain ⟨hK1, hK2⟩ := floorLog2_spec items (by omega)
    have hup := bk_passes_up_inv base stride items d hσ (floorLog2 items)
    have hdn := bk_passes_down_inv base stride items d hσ (floorLog2 items) _
      (downInv_init base stride items d _ (floorLog2 items) hK1 hK2 hup)
    obtain ⟨-, -, hf⟩ := hdn
    exact hf q hq

end PrefixSum

/-! ### Image, swizzle and per-pixel sampling (source lines 169-378) -/

/-- `astcenc_type`: the pixel format tag. -/
inductive astcenc_type
  | U8
  | F16
  | F32
deriving DecidableEq

/-- `astcenc_swizzle`: each output channel selects one of
R=0, G=1, B=2, A=3, ZERO=4, ONE=5. -/
structure astcenc_swizzle where
  r : Fin 6
  g : Fin 6
  b : Fin 6
  a : Fin 6
deriving DecidableEq

/-- `astcenc_image`: dimensions, format tag and the raw buffer under each
of the three casts the source applies to `img->data`
(`uint8_t*` linear, `uint16_t***` triple-indexed, `float4*` linear). -/
structure astcenc_image where
  dim_x : ℕ
  dim_y : ℕ
  dim_z : ℕ
  data_type : astcenc_type
  dataU8 : ℕ → ℕ
  dataF16 : ℕ → ℕ → ℕ → ℕ
  dataF32 : ℕ → V4

/-- `needs_swz` (source lines 170-171): true iff the swizzle is not the
identity. -/
def needs_swz (swz : astcenc_swizzle) : Prop :=
  swz.r ≠ 0 ∨ swz.g ≠ 1 ∨ swz.b ≠ 2 ∨ swz.a ≠ 3

instance (swz : astcenc_swizzle) : Decidable (needs_swz swz) := by
  unfold needs_swz
  infer_instance

/-- The `1e-6f` floor applied before `powf` (modelled exactly as
`10 ^ -6`). -/
def pow_floor_eps : ℚ := 1 / 1000000

/-- Channel `c`'s response-curve exponent: `rgb_power` for r, g, b and
`alpha_power` for a (source lines 239-242). -/
def ch_power (rgb_power alpha_power : ℚ) : Fin 4 → ℚ :=
  fun c => if c = 3 then alpha_power else rgb_power

/-- The power-curve step shared by the three format paths (source lines
237-243, 291-297, 365-371): a bypass when both exponents are `1.0`
(`are_powers_1`, line 152), otherwise per channel
`powf(MAX(v, 1e-6), exponent)`.  `fpow` is the model of the external
`powf`. -/
def apply_powers (rgb_power alpha_power : ℚ) (fpow : ℚ → ℚ → ℚ) (d : V4) : V4 :=
  if rgb_power = 1 ∧ alpha_power = 1 then d
  else fun c => fpow (max (d c) pow_floor_eps) (ch_power rgb_power alpha_power c)

/-- The four swizzle selectors as a function of the output channel. -/
def swz_ch (swz : astcenc_swizzle) : Fin 4 → Fin 6 := ![swz.r, swz.g, swz.b, swz.a]

/-- Per-cell fetch + swizzle + power curve of the three format branches of
`compute_pixel_region_variance` (source lines 174-378), at already-clamped
source coordinates `(x_src, y_src, z_src)`.

* U8 branch (lines 174-250, compiled with `USE_2DARRAY`): the raw buffer
  is addressed `(y_src * dim_x + x_src) * 4` — `z_src` is not used;
  bytes are normalized by `1/255`; swizzle constants are 0 and 255.
* F16 branch (lines 251-304): the raw buffer is addressed
  `data16[z_src][y_src][4 * x_src + c]`; `f16d` models the external
  `sf16_to_float`; swizzle constants are 0 and 0x3C00.
* F32 branch (lines 305-378, compiled with `USE_2DARRAY`): the raw buffer
  is addressed `y_src * dim_x + x_src` — `z_src` is not used (the source
  asserts `z_src == 0`); swizzle constants are 0.0 and 1.0. -/
def sample_pixel (img : astcenc_image) (swz : astcenc_swizzle) (rgb_power alpha_power : ℚ)
    (fpow : ℚ → ℚ → ℚ) (f16d : ℕ → ℚ) (x_src y_src z_src : ℕ) : V4 :=
  match img.data_type with
  | astcenc_type.U8 =>
    let px := (y_src * img.dim_x + x_src) * 4
    let r := img.dataU8 px
    let g := img.dataU8 (px + 1)
    let b := img.dataU8 (px + 2)
    let a := img.dataU8 (px + 3)
    let rgba : Fin 4 → ℕ :=
      if needs_swz swz then
        let data : Fin 6 → ℕ := ![r, g, b, a, 0, 255]
        ![data swz.r, data swz.g, data swz.b, data swz.a]
      else ![r, g, b, a]
    apply_powers rgb_power alpha_power fpow (fun c => (rgba c : ℚ) * (1 / 255))
  | astcenc_type.F16 =>
    let data : Fin 6 → ℕ := ![img.dataF16 z_src y_src (4 * x_src),
      img.dataF16 z_src y_src (4 * x_src + 1), img.dataF16 z_src y_src (4 * x_src + 2),
      img.dataF16 z_src y_src (4 * x_src + 3), 0, 0x3C00]
    apply_powers rgb_power alpha_power fpow
      ![f16d (data swz.r), f16d (data swz.g), f16d (data swz.b), f16d (data swz.a)]
  | astcenc_type.F32 =>
    let dv := img.dataF32 (y_src * img.dim_x + x_src)
    let d : V4 :=
      if needs_swz swz then
        let data : Fin 6 → ℚ := ![dv 0, dv 1, dv 2, dv 3, 0, 1]
        ![data swz.r, data swz.g, data swz.b, data swz.a]
      else dv
    apply_powers rgb_power alpha_power fpow d

/-! ### Tile geometry, work buffers and 2D SAT pipeline
(source lines 113-167, 380-427) -/

/-- The unpacked argument structure of `compute_pixel_region_variance`
(its `int` fields are non-negative by the §7 caller contract, so they are
modelled as `ℕ`). -/
structure pixel_region_variance_args where
  dim_x : ℕ
  dim_y : ℕ
  dim_z : ℕ
  have_z : Bool
  size_x : ℕ
  size_y : ℕ
  size_z : ℕ
  offset_x : ℕ
  offset_y : ℕ
  offset_z : ℕ
  avg_var_kernel_radius : ℕ
  alpha_kernel_radius : ℕ

/-- `kernel_radius = MAX(avg_var_kernel_radius, alpha_kernel_radius)`
(source line 141). -/
def kernel_radius (A : pixel_region_variance_args) : ℕ :=
  max A.avg_var_kernel_radius A.alpha_kernel_radius

/-- `kerneldim = 2 * kernel_radius + 1` (source line 142). -/
def kerneldim (A : pixel_region_variance_args) : ℕ := 2 * kernel_radius A + 1

/-- `padsize_x = size_x + kerneldim` (source line 146). -/
def padsize_x (A : pixel_region_variance_args) : ℕ := A.size_x + kerneldim A

/-- `padsize_y = size_y + kerneldim` (source line 147). -/
def padsize_y (A : pixel_region_variance_args) : ℕ := A.size_y + kerneldim A

/-- `padsize_z = size_z + (have_z ? kerneldim : 0)` (source line 148). -/
def padsize_z (A : pixel_region_variance_args) : ℕ :=
  A.size_z + (if A.have_z then kerneldim A else 0)

/-- `yst = padsize_x`, the y scaling factor for work-buffer accesses
(source line 158). -/
def yst (A : pixel_region_variance_args) : ℕ := padsize_x A

/-- The `VARBUF(0, y, x)` flat index `y * yst + x` (source line 166,
with `z = 0` in the 2D branch). -/
def idx (A : pixel_region_variance_args) (y x : ℕ) : ℕ := y * yst A + x

/-- `astc::clamp(v, lo, hi)`. -/
def clampi (v lo hi : ℤ) : ℤ := max lo (min v hi)

/-- The clamped source x coordinate for work-buffer column `x`
(source lines 198-199 and the analogous lines of the other format
branches): `clamp((x - 1) + offset_x - kernel_radius, 0, dim_x - 1)`. -/
def src_x (A : pixel_region_variance_args) (x : ℕ) : ℕ :=
  (clampi ((x : ℤ) - 1 + A.offset_x - kernel_radius A) 0 ((A.dim_x : ℤ) - 1)).toNat

/-- The clamped source y coordinate for work-buffer row `y` (source lines
193-194). -/
def src_y (A : pixel_region_variance_args) (y : ℕ) : ℕ :=
  (clampi ((y : ℤ) - 1 + A.offset_y - kernel_radius A) 0 ((A.dim_y : ℤ) - 1)).toNat

/-- The work-buffer contents after the 2D sampling loops (rows and
columns from 1, source lines 186-249) and the border zero pass (source
lines 380-395): border cells at `x = 0` or `y = 0` hold `0`, interior
cells hold the sampled value `f` at the clamped source coordinates.
`f x y` is the per-pixel sampled value (fetch + swizzle + power curve).
Cells beyond the allocation are modelled as `0`; they are never read. -/
def varbuf_fill (f : ℕ → ℕ → V4) (A : pixel_region_variance_args) : ℕ → V4 := fun q =>
  let y := q / yst A
  let x := q % yst A
  if y < padsize_y A then
    if x = 0 ∨ y = 0 then 0
    else f (src_x A x) (src_y A y)
  else 0

/-- The x-direction SAT passes (source lines 411-418): one
`brent_kung_prefix_sum` over `padsize_x - 1` elements at stride 1 for
each row `y = 1 .. padsize_y - 1`, starting at `VARBUF(0, y, 1)`.
`sat_rows n` runs the rows `1 .. n`. -/
def sat_rows (A : pixel_region_variance_args) : ℕ → (ℕ → V4) → (ℕ → V4)
  | 0, buf => buf
  | y + 1, buf =>
      brent_kung_prefix_sum (sat_rows A y buf) (idx A (y + 1) 1) (padsize_x A - 1) 1

/-- The y-direction SAT passes (source lines 420-427): one
`brent_kung_prefix_sum` over `padsize_y - 1` elements at stride `yst`
for each column `x = 1 .. padsize_x - 1`, starting at `VARBUF(0, 1, x)`.
`sat_cols n` runs the columns `1 .. n`. -/
def sat_cols (A : pixel_region_variance_args) : ℕ → (ℕ → V4) → (ℕ → V4)
  | 0, buf => buf
  | x + 1, buf =>
      brent_kung_prefix_sum (sat_cols A x buf) (idx A 1 (x + 1)) (padsize_y A - 1) (yst A)

/-- The complete 2D summed-area-table build: x passes then y passes. -/
def sat_build (A : pixel_region_variance_args) (buf : ℕ → V4) : ℕ → V4 :=
  sat_cols A (padsize_x A - 1) (sat_rows A (padsize_y A - 1) buf)

/-- The `varbuf1` plane (values) after sampling, border fill and SAT
build. -/
def varbuf1_sat (f : ℕ → ℕ → V4) (A : pixel_region_variance_args) : ℕ → V4 :=
  sat_build A (varbuf_fill f A)

/-- The `varbuf2` plane (componentwise squares, `VARBUF2(z,y,x) = d * d`)
after sampling, border fill and SAT build. -/
def varbuf2_sat (f : ℕ → ℕ → V4) (A : pixel_region_variance_args) : ℕ → V4 :=
  sat_build A (varbuf_fill (fun x y => f x y * f x y) A)

/-! ### Windowed-stats extraction (source lines 441-605) -/

/-- `x_src = x + kernel_radius_xy` of the extraction loops (source lines
500, 556, 567; the same formula gives `z_src` with `kernel_radius_z` in
the volumetric branch). -/
def corner_src (A : pixel_region_variance_args) (c : ℕ) : ℕ := c + kernel_radius A

/-- `x_low = x_src - alpha_kernel_radius` (source lines 502, 558, 569;
likewise `y_low`, `z_low`).  Note: the `astc::clamp` calls at source
lines 482-507 and 561-574 discard their return values, so no clamping is
applied to these corner coordinates. -/
def corner_low (A : pixel_region_variance_args) (c : ℕ) : ℕ :=
  corner_src A c - A.alpha_kernel_radius

/-- `x_high = x_src + alpha_kernel_radius + 1` (source lines 503, 559,
570; likewise `y_high`, `z_high`).  As with `corner_low`, the source's
clamp calls discard their results. -/
def corner_high (A : pixel_region_variance_args) (c : ℕ) : ℕ :=
  corner_src A c + A.alpha_kernel_radius + 1

/-- `avg_var_kdim = 2 * avg_var_kernel_radius + 1` (source line 441). -/
def avg_var_kdim (A : pixel_region_variance_args) : ℕ := 2 * A.avg_var_kernel_radius + 1

/-- `alpha_kdim = 2 * alpha_kernel_radius + 1` (source line 442). -/
def alpha_kdim (A : pixel_region_variance_args) : ℕ := 2 * A.alpha_kernel_radius + 1

/-- `avg_var_samples` (source lines 449-458): `kdim^3` if volumetric,
else `kdim^2`. -/
def avg_var_samples (A : pixel_region_variance_args) : ℚ :=
  if A.have_z then (avg_var_kdim A : ℚ) * (avg_var_kdim A) * (avg_var_kdim A)
  else (avg_var_kdim A : ℚ) * (avg_var_kdim A)

/-- `alpha_rsamples` (source lines 452, 457). -/
def alpha_rsamples (A : pixel_region_variance_args) : ℚ :=
  if A.have_z then 1 / ((alpha_kdim A : ℚ) * (alpha_kdim A) * (alpha_kdim A))
  else 1 / ((alpha_kdim A : ℚ) * (alpha_kdim A))

/-- `avg_var_rsamples = 1 / avg_var_samples` (source line 460). -/
def avg_var_rsamples (A : pixel_region_variance_args) : ℚ := 1 / avg_var_samples A

/-- `mul1` (source lines 461-468): `1` when `avg_var_samples == 1`, else
`1 / (avg_var_samples * (avg_var_samples - 1))`. -/
def mul1 (A : pixel_region_variance_args) : ℚ :=
  if avg_var_samples A = 1 then 1
  else 1 / (avg_var_samples A * (avg_var_samples A - 1))

/-- `mul2 = avg_var_samples * mul1` (source line 470). -/
def mul2 (A : pixel_region_variance_args) : ℚ := avg_var_samples A * mul1 A

/-- `v1sum` of the 2D extraction branch (source lines 586-589): the
four-corner combination of the `varbuf1` SAT at the `alpha`-radius
corner coordinates. -/
def v1sum (f : ℕ → ℕ → V4) (A : pixel_region_variance_args) (x y : ℕ) : V4 :=
  varbuf1_sat f A (idx A (corner_low A y) (corner_low A x))
    - varbuf1_sat f A (idx A (corner_low A y) (corner_high A x))
    - varbuf1_sat f A (idx A (corner_high A y) (corner_low A x))
    + varbuf1_sat f A (idx A (corner_high A y) (corner_high A x))

/-- `v2sum` of the 2D extraction branch (source lines 591-594). -/
def v2sum (f : ℕ → ℕ → V4) (A : pixel_region_variance_args) (x y : ℕ) : V4 :=
  varbuf2_sat f A (idx A (corner_low A y) (corner_low A x))
    - varbuf2_sat f A (idx A (corner_low A y) (corner_high A x))
    - varbuf2_sat f A (idx A (corner_high A y) (corner_low A x))
    + varbuf2_sat f A (idx A (corner_high A y) (corner_high A x))

/-- `vasum` of the 2D extraction branch (source lines 577-580): the same
four corner lookups on the alpha lane (`.a` = channel 3) of `varbuf1`. -/
def vasum (f : ℕ → ℕ → V4) (A : pixel_region_variance_args) (x y : ℕ) : ℚ :=
  v1sum f A x y 3

/-- The alpha average written at tile pixel `(x, y)` (source line 583);
the destination index is `(y + offset_y) * dim_x + (x + offset_x)`. -/
def input_alpha_averages (f : ℕ → ℕ → V4) (A : pixel_region_variance_args) (x y : ℕ) : ℚ :=
  vasum f A x y * alpha_rsamples A

/-- The RGBA average written at tile pixel `(x, y)`
(source lines 597-598): `avg = v1sum * avg_var_rsamples`. -/
def input_averages (f : ℕ → ℕ → V4) (A : pixel_region_variance_args) (x y : ℕ) : V4 :=
  fun c => v1sum f A x y c * avg_var_rsamples A

/-- The RGBA variance written at tile pixel `(x, y)`
(source lines 601-602): `variance = mul2 * v2sum - mul1 * (v1sum * v1sum)`. -/
def input_variances (f : ℕ → ℕ → V4) (A : pixel_region_variance_args) (x y : ℕ) : V4 :=
  fun c => mul2 A * v2sum f A x y c - mul1 A * (v1sum f A x y c * v1sum f A x y c)

/-- The per-pixel sampled-value function the 2D run feeds into the
pipeline: in the 2D branch the z loop runs only `z = 0` with
`z_src = clamp(offset_z, 0, dim_z - 1) = 0` (2D runs have
`offset_z = 0`, `dim_z = 1`). -/
def sampled2d (img : astcenc_image) (swz : astcenc_swizzle) (rgb_power alpha_power : ℚ)
    (fpow : ℚ → ℚ → ℚ) (f16d : ℕ → ℚ) : ℕ → ℕ → V4 :=
  fun x y => sample_pixel img swz rgb_power alpha_power fpow f16d x y 0

/-! ### Characterization of the work buffer and the SAT build -/

theorem yst_pos (A : pixel_region_variance_args) : 0 < yst A := by
  unfold yst padsize_x kerneldim
  omega

theorem idx_div (A : pixel_region_variance_args) (y x : ℕ) (hx : x < yst A) :
    idx A y x / yst A = y := by
  unfold idx
  rw [add_comm, mul_comm, Nat.add_mul_div_left _ _ (yst_pos A), Nat.div_eq_of_lt hx]
  omega

theorem idx_mod (A : pixel_region_variance_args) (y x : ℕ) (hx : x < yst A) :
    idx A y x % yst A = x := by
  unfold idx
  rw [add_comm, mul_comm, Nat.add_mul_mod_self_left, Nat.mod_eq_of_lt hx]

theorem idx_inj (A : pixel_region_variance_args) (y x y' x' : ℕ) (hx : x < yst A)
    (hx' : x' < yst A) (h : idx A y x = idx A y' x') : y = y' ∧ x = x' := by
  have h1 : idx A y x / yst A = idx A y' x' / yst A := by rw [h]
  have h2 : idx A y x % yst A = idx A y' x' % yst A := by rw [h]
  rw [idx_div A y x hx, idx_div A y' x' hx'] at h1
  rw [idx_mod A y x hx, idx_mod A y' x' hx'] at h2
  exact ⟨h1, h2⟩

theorem varbuf_fill_interior (f : ℕ → ℕ → V4) (A : pixel_region_variance_args) (y x : ℕ)
    (hy1 : 1 ≤ y) (hy : y < padsize_y A) (hx1 : 1 ≤ x) (hx : x < padsize_x A) :
    varbuf_fill f A (idx A y x) = f (src_x A x) (src_y A y) := by
  unfold varbuf_fill
  rw [idx_div A y x hx, idx_mod A y x hx, if_pos hy, if_neg (by omega)]

theorem varbuf_fill_border (f : ℕ → ℕ → V4) (A : pixel_region_variance_args) (y x : ℕ)
    (hy : y < padsize_y A) (hx : x < padsize_x A) (h0 : x = 0 ∨ y = 0) :
    varbuf_fill f A (idx A y x) = 0 := by
  unfold varbuf_fill
  rw [idx_div A y x hx, idx_mod A y x hx, if_pos hy, if_pos h0]

theorem sat_rows_char (f : ℕ → ℕ → V4) (A : pixel_region_variance_args) (n : ℕ) :
    ∀ y x : ℕ, y < padsize_y A → x < padsize_x A →
    sat_rows A n (varbuf_fill f A) (idx A y x) =
      if 1 ≤ y ∧ y ≤ n ∧ 1 ≤ x then
        ∑ t ∈ Finset.Icc 1 x, varbuf_fill f A (idx A y t)
      else varbuf_fill f A (idx A y x) := by
  induction n with
  | zero =>
    intro y x hy hx
    rw [sat_rows, if_neg (by omega)]
  | succ n ih =>
    intro y x hy hx
    rw [sat_rows]
    by_cases hrow : y = n + 1 ∧ 1 ≤ x
    · obtain ⟨hyrow, hx1⟩ := hrow
      rw [← hyrow]
      have hpos : idx A y x = idx A y 1 + (x - 1) * 1 := by
        unfold idx
        omega
      rw [hpos, brent_kung_prefix_sum_correct _ _ _ _ le_rfl (x - 1) (by omega)]
      have hIcc : Finset.Icc 0 (x - 1) = Finset.range x := by
        ext j
        simp only [Finset.mem_Icc, Finset.mem_range]
        omega
      rw [if_pos ⟨by omega, le_rfl, hx1⟩, hIcc, ← Nat.Ico_succ_right,
        Finset.sum_Ico_eq_sum_range, show x + 1 - 1 = x from by omega]
      apply Finset.sum_congr rfl
      intro i hi
      rw [Finset.mem_range] at hi
      have he : idx A y 1 + i * 1 = idx A y (1 + i) := by
        unfold idx
        omega
      rw [he, ih y (1 + i) hy (by omega), if_neg (by omega)]
    · have hframe : ∀ p, p < padsize_x A - 1 → idx A y x ≠ idx A (n + 1) 1 + p * 1 := by
        intro p hp he
        have he2 : idx A (n + 1) 1 + p * 1 = idx A (n + 1) (1 + p) := by
          unfold idx
          omega
        rw [he2] at he
        obtain ⟨h1, h2⟩ := idx_inj A y x (n + 1) (1 + p) hx (by
          unfold yst
          omega) he
        exact hrow ⟨h1, by omega⟩
      rw [brent_kung_prefix_sum_frame _ _ _ _ le_rfl _ hframe, ih y x hy hx]
      by_cases hc : 1 ≤ y ∧ y ≤ n ∧ 1 ≤ x
      · rw [if_pos hc, if_pos ⟨hc.1, by omega, hc.2.2⟩]
      · rw [if_neg hc, if_neg (by
          rintro ⟨h1, h2, h3⟩
          exact hc (by
            rcases Nat.lt_or_ge n.succ y with hlt | hge
            · omega
            · refine ⟨h1, ?_, h3⟩
              rcases Nat.eq_or_lt_of_le h2 with he | hlt2
              · exact absurd ⟨he, h3⟩ hrow
              · omega))]

theorem sat_cols_char (f : ℕ → ℕ → V4) (A : pixel_region_variance_args) (m : ℕ)
    (hm : m < padsize_x A) :
    ∀ y x : ℕ, y < padsize_y A → x < padsize_x A →
    sat_cols A m (sat_rows A (padsize_y A - 1) (varbuf_fill f A)) (idx A y x) =
      if 1 ≤ x ∧ x ≤ m ∧ 1 ≤ y then
        ∑ u ∈ Finset.Icc 1 y, sat_rows A (padsize_y A - 1) (varbuf_fill f A) (idx A u x)
      else sat_rows A (padsize_y A - 1) (varbuf_fill f A) (idx A y x) := by
  induction m with
  | zero =>
    intro y x hy hx
    rw [sat_cols, if_neg (by omega)]
  | succ m ih =>
    intro y x hy hx
    rw [sat_cols]
    by_cases hcol : x = m + 1 ∧ 1 ≤ y
    · obtain ⟨hxcol, hy1⟩ := hcol
      rw [← hxcol]
      have hms : (y - 1) * yst A + yst A = y * yst A := by
        have h1 : (y - 1) + 1 = y := by omega
        calc (y - 1) * yst A + yst A = ((y - 1) + 1) * yst A := by ring
          _ = y * yst A := by rw [h1]
      have hpos : idx A y x = idx A 1 x + (y - 1) * yst A := by
        unfold idx
        omega
      rw [hpos, brent_kung_prefix_sum_correct _ _ _ _ (yst_pos A) (y - 1) (by omega)]
      have hIcc : Finset.Icc 0 (y - 1) = Finset.range y := by
        ext j
        simp only [Finset.mem_Icc, Finset.mem_range]
        omega
      rw [if_pos ⟨by omega, le_rfl, hy1⟩, hIcc, ← Nat.Ico_succ_right,
        Finset.sum_Ico_eq_sum_range, show y + 1 - 1 = y from by omega]
      apply Finset.sum_congr rfl
      intro j hj
      rw [Finset.mem_range] at hj
      have he : idx A 1 x + j * yst A = idx A (1 + j) x := by
        unfold idx
        ring
      rw [he, ih (by omega) (1 + j) x (by omega) hx, if_neg (by omega)]
    · have hframe : ∀ p, p < padsize_y A - 1 →
          idx A y x ≠ idx A 1 (m + 1) + p * yst A := by
        intro p hp he
        have he2 : idx A 1 (m + 1) + p * yst A = idx A (1 + p) (m + 1) := by
          unfold idx
          ring
        rw [he2] at he
        obtain ⟨h1, h2⟩ := idx_inj A y x (1 + p) (m + 1) hx (by
          unfold yst
          omega) he
        exact hcol ⟨h2, by omega⟩
      rw [brent_kung_prefix_sum_frame _ _ _ _ (yst_pos A) _ hframe,
        ih (by omega) y x hy hx]
      by_cases hc : 1 ≤ x ∧ x ≤ m ∧ 1 ≤ y
      · rw [if_pos hc, if_pos ⟨hc.1, by omega, hc.2.2⟩]
      · rw [if_neg hc, if_neg (by
          rintro ⟨h1, h2, h3⟩
          exact hc (by
            refine ⟨h1, ?_, h3⟩
            rcases Nat.eq_or_lt_of_le h2 with he | hlt2
            · exact absurd ⟨he, h3⟩ hcol
            · omega))]

/-- The summed-area-table value: for `y < padsize_y` and `x < padsize_x`,
cell `(y, x)` of the built SAT holds the sum of the sampled values over
the box `[1, y] × [1, x]` (rows/columns 0 are the zero border). -/
theorem sat_build_apply (f : ℕ → ℕ → V4) (A : pixel_region_variance_args) (y x : ℕ)
    (hy : y < padsize_y A) (hx : x < padsize_x A) :
    sat_build A (varbuf_fill f A) (idx A y x) =
      ∑ u ∈ Finset.Icc 1 y, ∑ t ∈ Finset.Icc 1 x, f (src_x A t) (src_y A u) := by
  unfold sat_build
  rw [sat_cols_char f A (padsize_x A - 1) (by
    unfold padsize_x kerneldim
    omega) y x hy hx]
  by_cases hcase : 1 ≤ x ∧ 1 ≤ y
  · rw [if_pos ⟨hcase.1, by omega, hcase.2⟩]
    apply Finset.sum_congr rfl
    intro u hu
    rw [Finset.mem_Icc] at hu
    rw [sat_rows_char f A (padsize_y A - 1) u x (by omega) hx,
      if_pos ⟨by omega, by omega, hcase.1⟩]
    apply Finset.sum_congr rfl
    intro t ht
    rw [Finset.mem_Icc] at ht
    exact varbuf_fill_interior f A u t (by omega) (by omega) (by omega) (by omega)
  · rw [if_neg (fun hc => hcase ⟨hc.1, hc.2.2⟩)]
    rw [sat_rows_char f A (padsize_y A - 1) y x hy hx]
    rcases Nat.eq_zero_or_pos x with hx0 | hx0
    · rw [if_neg (by omega), varbuf_fill_border f A y x hy hx (Or.inl hx0)]
      subst hx0
      simp
    · have hy0 : y = 0 := by omega
      rw [if_neg (by omega), varbuf_fill_border f A y x hy hx (Or.inr hy0)]
      subst hy0
      simp

theorem alpha_le_kernel (A : pixel_region_variance_args) :
    A.alpha_kernel_radius ≤ kernel_radius A := le_max_right _ _

theorem avg_le_kernel (A : pixel_region_variance_args) :
    A.avg_var_kernel_radius ≤ kernel_radius A := le_max_left _ _

/-- The corner coordinates lie inside `[0, s + kerneldim)` whenever the
pixel coordinate lies inside the tile extent `s` of that axis: the
padding by the combined kernel radius absorbs the alpha-radius window. -/
theorem corner_bounds_generic (A : pixel_region_variance_args) (c s : ℕ) (hc : c < s) :
    corner_low A c ≤ corner_high A c ∧ corner_high A c < s + kerneldim A := by
  have haK := alpha_le_kernel A
  unfold corner_low corner_high corner_src kerneldim
  omega

theorem corner_low_le_high (A : pixel_region_variance_args) (c : ℕ) :
    corner_low A c ≤ corner_high A c := by
  have haK := alpha_le_kernel A
  unfold corner_low corner_high corner_src
  omega

theorem corner_span (A : pixel_region_variance_args) (c : ℕ) :
    corner_high A c + 1 - (corner_low A c + 1) = 2 * A.alpha_kernel_radius + 1 := by
  have haK := alpha_le_kernel A
  unfold corner_low corner_high corner_src
  omega

/-- Difference of two prefix sums over `Icc 1 _` is the sum over the
half-open window. -/
theorem sum_Icc_one_diff {G : Type} [AddCommGroup G] (g : ℕ → G) (a b : ℕ) (h : a ≤ b) :
    (∑ j ∈ Finset.Icc 1 b, g j) - (∑ j ∈ Finset.Icc 1 a, g j) =
      ∑ j ∈ Finset.Icc (a + 1) b, g j := by
  rw [← sum_Icc_merge g 1 a b (by omega) h]
  abel

/-- The four-corner SAT combination equals the boxed double sum over the
half-open window `(y_low, y_high] × (x_low, x_high]`. -/
theorem v1sum_box (f : ℕ → ℕ → V4) (A : pixel_region_variance_args) (x y : ℕ)
    (hx : x < A.size_x) (hy : y < A.size_y) :
    v1sum f A x y =
      ∑ u ∈ Finset.Icc (corner_low A y + 1) (corner_high A y),
        ∑ t ∈ Finset.Icc (corner_low A x + 1) (corner_high A x),
          f (src_x A t) (src_y A u) := by
  have hbx := corner_bounds_generic A x A.size_x hx
  have hby := corner_bounds_generic A y A.size_y hy
  have hlx : corner_low A x < padsize_x A :=
    lt_of_le_of_lt hbx.1 hbx.2
  have hhx : corner_high A x < padsize_x A := hbx.2
  have hly : corner_low A y < padsize_y A :=
    lt_of_le_of_lt hby.1 hby.2
  have hhy : corner_high A y < padsize_y A := hby.2
  unfold v1sum varbuf1_sat
  rw [sat_build_apply f A _ _ hly hlx, sat_build_apply f A _ _ hly hhx,
    sat_build_apply f A _ _ hhy hlx, sat_build_apply f A _ _ hhy hhx]
  have e1 : ∀ Y : ℕ,
      ((∑ u ∈ Finset.Icc 1 Y, ∑ t ∈ Finset.Icc 1 (corner_high A x), f (src_x A t) (src_y A u))
        - ∑ u ∈ Finset.Icc 1 Y, ∑ t ∈ Finset.Icc 1 (corner_low A x), f (src_x A t) (src_y A u))
      = ∑ u ∈ Finset.Icc 1 Y,
          ∑ t ∈ Finset.Icc (corner_low A x + 1) (corner_high A x), f (src_x A t) (src_y A u) := by
    intro Y
    rw [← Finset.sum_sub_distrib]
    exact Finset.sum_congr rfl (fun u _ => sum_Icc_one_diff _ _ _ hbx.1)
  calc
    (∑ u ∈ Finset.Icc 1 (corner_low A y), ∑ t ∈ Finset.Icc 1 (corner_low A x),
        f (src_x A t) (src_y A u))
      - (∑ u ∈ Finset.Icc 1 (corner_low A y), ∑ t ∈ Finset.Icc 1 (corner_high A x),
        f (src_x A t) (src_y A u))
      - (∑ u ∈ Finset.Icc 1 (corner_high A y), ∑ t ∈ Finset.Icc 1 (corner_low A x),
        f (src_x A t) (src_y A u))
      + (∑ u ∈ Finset.Icc 1 (corner_high A y), ∑ t ∈ Finset.Icc 1 (corner_high A x),
        f (src_x A t) (src_y A u))
    = ((∑ u ∈ Finset.Icc 1 (corner_high A y), ∑ t ∈ Finset.Icc 1 (corner_high A x),
        f (src_x A t) (src_y A u))
      - ∑ u ∈ Finset.Icc 1 (corner_high A y), ∑ t ∈ Finset.Icc 1 (corner_low A x),
        f (src_x A t) (src_y A u))
      - ((∑ u ∈ Finset.Icc 1 (corner_low A y), ∑ t ∈ Finset.Icc 1 (corner_high A x),
        f (src_x A t) (src_y A u))
      - ∑ u ∈ Finset.Icc 1 (corner_low A y), ∑ t ∈ Finset.Icc 1 (corner_low A x),
        f (src_x A t) (src_y A u)) := by abel
    _ = (∑ u ∈ Finset.Icc 1 (corner_high A y),
          ∑ t ∈ Finset.Icc (corner_low A x + 1) (corner_high A x), f (src_x A t) (src_y A u))
      - ∑ u ∈ Finset.Icc 1 (corner_low A y),
          ∑ t ∈ Finset.Icc (corner_low A x + 1) (corner_high A x), f (src_x A t) (src_y A u) := by
        rw [e1, e1]
    _ = ∑ u ∈ Finset.Icc (corner_low A y + 1) (corner_high A y),
          ∑ t ∈ Finset.Icc (corner_low A x + 1) (corner_high A x), f (src_x A t) (src_y A u) :=
        sum_Icc_one_diff _ _ _ hby.1

/-! ### The claim-side vocabulary: edge-clamped samples and centered
windows -/

/-- Clamp-to-edge lookup of the sampled-value function on `ℤ`
coordinates. -/
def edge_clamped (f : ℕ → ℕ → V4) (dx dy : ℕ) : ℤ → ℤ → V4 :=
  fun u v => f (clampi u 0 ((dx : ℤ) - 1)).toNat (clampi v 0 ((dy : ℤ) - 1)).toNat

/-- The `(2R+1) × (2R+1)` window sum of `g` centered at `(cx, cy)`. -/
def window_sum (g : ℤ → ℤ → V4) (cx cy : ℤ) (R : ℕ) : V4 :=
  ∑ j ∈ Finset.range (2 * R + 1), ∑ i ∈ Finset.range (2 * R + 1),
    g (cx + i - R) (cy + j - R)

theorem src_x_shift (A : pixel_region_variance_args) (x i : ℕ) :
    src_x A (corner_low A x + 1 + i) =
      (clampi ((x : ℤ) + (A.offset_x : ℤ) + (i : ℤ) - (A.alpha_kernel_radius : ℤ)) 0
        ((A.dim_x : ℤ) - 1)).toNat := by
  have haK := alpha_le_kernel A
  unfold src_x corner_low corner_src
  have he : ((x + kernel_radius A - A.alpha_kernel_radius + 1 + i : ℕ) : ℤ) - 1
        + (A.offset_x : ℤ) - (kernel_radius A : ℤ)
      = (x : ℤ) + (A.offset_x : ℤ) + (i : ℤ) - (A.alpha_kernel_radius : ℤ) := by
    omega
  rw [he]

theorem src_y_shift (A : pixel_region_variance_args) (y j : ℕ) :
    src_y A (corner_low A y + 1 + j) =
      (clampi ((y : ℤ) + (A.offset_y : ℤ) + (j : ℤ) - (A.alpha_kernel_radius : ℤ)) 0
        ((A.dim_y : ℤ) - 1)).toNat := by
  have haK := alpha_le_kernel A
  unfold src_y corner_low corner_src
  have he : ((y + kernel_radius A - A.alpha_kernel_radius + 1 + j : ℕ) : ℤ) - 1
        + (A.offset_y : ℤ) - (kernel_radius A : ℤ)
      = (y : ℤ) + (A.offset_y : ℤ) + (j : ℤ) - (A.alpha_kernel_radius : ℤ) := by
    omega
  rw [he]

/-- The four-corner combination `v1sum` is the full `(2R+1)²` window sum
of the edge-clamped samples centered at the pixel's image coordinate,
with `R = alpha_kernel_radius` (both windows use the alpha radius — see
the `corner_low`/`corner_high` definitions). -/
theorem v1sum_window (f : ℕ → ℕ → V4) (A : pixel_region_variance_args) (x y : ℕ)
    (hx : x < A.size_x) (hy : y < A.size_y) :
    v1sum f A x y = window_sum (edge_clamped f A.dim_x A.dim_y)
      ((x : ℤ) + (A.offset_x : ℤ)) ((y : ℤ) + (A.offset_y : ℤ)) A.alpha_kernel_radius := by
  rw [v1sum_box f A x y hx hy]
  unfold window_sum
  rw [← Nat.Ico_succ_right, Finset.sum_Ico_eq_sum_range, corner_span A y]
  apply Finset.sum_congr rfl
  intro j hj
  rw [← Nat.Ico_succ_right, Finset.sum_Ico_eq_sum_range, corner_span A x]
  apply Finset.sum_congr rfl
  intro i hi
  unfold edge_clamped
  rw [src_x_shift A x i, src_y_shift A y j]

/-- `v2sum` is `v1sum` of the squared sample function (the `varbuf2`
plane holds `d * d`). -/
theorem v2sum_eq (f : ℕ → ℕ → V4) (A : pixel_region_variance_args) (x y : ℕ) :
    v2sum f A x y = v1sum (fun a b => f a b * f a b) A x y := rfl

/-- Characterization of the written RGBA average: the `(2R+1)²`-sample
window sum at radius `R = alpha_kernel_radius` of the edge-clamped
samples, multiplied by `avg_var_rsamples = 1 / avg_var_samples` (which is
computed from `avg_var_kernel_radius`). -/
theorem input_averages_char (f : ℕ → ℕ → V4) (A : pixel_region_variance_args) (x y : ℕ)
    (hx : x < A.size_x) (hy : y < A.size_y) :
    input_averages f A x y = fun c =>
      window_sum (edge_clamped f A.dim_x A.dim_y)
        ((x : ℤ) + (A.offset_x : ℤ)) ((y : ℤ) + (A.offset_y : ℤ)) A.alpha_kernel_radius c
      * avg_var_rsamples A := by
  unfold input_averages
  rw [v1sum_window f A x y hx hy]

/-- Characterization of the written RGBA variance. -/
theorem input_variances_char (f : ℕ → ℕ → V4) (A : pixel_region_variance_args) (x y : ℕ)
    (hx : x < A.size_x) (hy : y < A.size_y) :
    input_variances f A x y = fun c =>
      mul2 A * window_sum (edge_clamped (fun a b => f a b * f a b) A.dim_x A.dim_y)
        ((x : ℤ) + (A.offset_x : ℤ)) ((y : ℤ) + (A.offset_y : ℤ)) A.alpha_kernel_radius c
      - mul1 A * (window_sum (edge_clamped f A.dim_x A.dim_y)
          ((x : ℤ) + (A.offset_x : ℤ)) ((y : ℤ) + (A.offset_y : ℤ)) A.alpha_kernel_radius c
        * window_sum (edge_clamped f A.dim_x A.dim_y)
          ((x : ℤ) + (A.offset_x : ℤ)) ((y : ℤ) + (A.offset_y : ℤ)) A.alpha_kernel_radius c) := by
  unfold input_variances
  rw [v2sum_eq f A x y, v1sum_window f A x y hx hy,
    v1sum_window (fun a b => f a b * f a b) A x y hx hy]

/-- Characterization of the written alpha average: the same window sum on
channel 3, multiplied by `alpha_rsamples`. -/
theorem input_alpha_averages_char (f : ℕ → ℕ → V4) (A : pixel_region_variance_args) (x y : ℕ)
    (hx : x < A.size_x) (hy : y < A.size_y) :
    input_alpha_averages f A x y =
      window_sum (edge_clamped f A.dim_x A.dim_y)
        ((x : ℤ) + (A.offset_x : ℤ)) ((y : ℤ) + (A.offset_y : ℤ)) A.alpha_kernel_radius 3
      * alpha_rsamples A := by
  unfold input_alpha_averages vasum
  rw [v1sum_window f A x y hx hy]

theorem window_sum_apply (g : ℤ → ℤ → V4) (cx cy : ℤ) (R : ℕ) (ch : Fin 4) :
    window_sum g cx cy R ch =
      ∑ j ∈ Finset.range (2 * R + 1), ∑ i ∈ Finset.range (2 * R + 1),
        g (cx + i - R) (cy + j - R) ch := by
  unfold window_sum
  rw [Finset.sum_apply]
  exact Finset.sum_congr rfl fun j _ => Finset.sum_apply ch _ _

theorem window_sum_zero (g : ℤ → ℤ → V4) (cx cy : ℤ) : window_sum g cx cy 0 = g cx cy := by
  unfold window_sum
  simp

theorem window_sum_const (g : ℤ → ℤ → V4) (c : V4) (hg : ∀ u v, g u v = c)
    (cx cy : ℤ) (R : ℕ) (ch : Fin 4) :
    window_sum g cx cy R ch = ((2 * R + 1 : ℕ) : ℚ) * ((2 * R + 1 : ℕ) : ℚ) * c ch := by
  rw [window_sum_apply]
  calc ∑ j ∈ Finset.range (2 * R + 1), ∑ i ∈ Finset.range (2 * R + 1),
        g (cx + i - R) (cy + j - R) ch
      = ∑ _j ∈ Finset.range (2 * R + 1), ∑ _i ∈ Finset.range (2 * R + 1), c ch :=
        Finset.sum_congr rfl fun j _ => Finset.sum_congr rfl fun i _ => by rw [hg]
    _ = ((2 * R + 1 : ℕ) : ℚ) * ((2 * R + 1 : ℕ) : ℚ) * c ch := by
        simp [Finset.sum_const, Finset.card_range, nsmul_eq_mul]
        ring

theorem clampi_toNat_lt (u : ℤ) (d : ℕ) (hd : 1 ≤ d) :
    (clampi u 0 ((d : ℤ) - 1)).toNat < d := by
  unfold clampi
  omega

theorem edge_clamped_of_lt (f : ℕ → ℕ → V4) (dx dy : ℕ) (u v : ℕ)
    (hu : u < dx) (hv : v < dy) :
    edge_clamped f dx dy (u : ℤ) (v : ℤ) = f u v := by
  unfold edge_clamped
  have h1 : (clampi (u : ℤ) 0 ((dx : ℤ) - 1)).toNat = u := by
    unfold clampi
    omega
  have h2 : (clampi (v : ℤ) 0 ((dy : ℤ) - 1)).toNat = v := by
    unfold clampi
    omega
  rw [h1, h2]

theorem edge_clamped_const (f : ℕ → ℕ → V4) (dx dy : ℕ) (c : V4)
    (hdx : 1 ≤ dx) (hdy : 1 ≤ dy)
    (hconst : ∀ u v, u < dx → v < dy → f u v = c) (u v : ℤ) :
    edge_clamped f dx dy u v = c := by
  unfold edge_clamped
  exact hconst _ _ (clampi_toNat_lt u dx hdx) (clampi_toNat_lt v dy hdy)

/-! ### Scheduler geometry and work-unit decoding (source lines 608-707) -/

/-- `have_z = (size_z > 1)` (source line 677). -/
def sched_have_z (size_z : ℕ) : Bool := 1 < size_z

/-- `max_blk_size_xy = have_z ? 16 : 32` (source line 678). -/
def max_blk_size_xy (hz : Bool) : ℕ := if hz then 16 else 32

/-- `max_blk_size_z = MIN(size_z, have_z ? 16 : 1)` (source line 679). -/
def max_blk_size_z (size_z : ℕ) (hz : Bool) : ℕ := min size_z (if hz then 16 else 1)

/-- `z_tasks = (size_z + step_z - 1) / step_z` (source line 704, with
`step_z = max_blk_size_z`). -/
def z_tasks (size_z step_z : ℕ) : ℕ := (size_z + step_z - 1) / step_z

/-- `y_tasks = (size_y + step_y - 1) / step_y` (source lines 623, 705). -/
def y_tasks (size_y step_y : ℕ) : ℕ := (size_y + step_y - 1) / step_y

/-- `z = (base / y_tasks) * step_z` of the worker loop (source line 636):
the z offset of the tile row decoded from work unit `base`. -/
def task_z (base yt step_z : ℕ) : ℤ := ((base / yt : ℕ) : ℤ) * step_z

/-- `y = (base - z * y_tasks) * step_y` of the worker loop (source line
637).  Note `z` here is the already-`step_z`-scaled offset from
`task_z`, computed in `int` arithmetic (hence `ℤ`: the subtraction can
go negative). -/
def task_y (base yt step_y step_z : ℕ) : ℤ :=
  ((base : ℤ) - task_z base yt step_z * yt) * step_y

/-! ## The claims -/

/-- C3: for every `n ≥ 0`, every `stride ≥ 1` and every input sequence of
vector accumulators at that stride (over any additive commutative monoid,
i.e. in exact arithmetic), `brent_kung_prefix_sum` transforms element `i`
in place into the sum of the original elements `0..i` inclusive, for all
`i < n`, and is a no-op when `n < 2`. -/
theorem c3_brent_kung_prefix_sum_correct (M : Type) [AddCommMonoid M] (d : ℕ → M)
    (base items stride : ℕ) (hstride : 1 ≤ stride) :
    (∀ i, i < items → brent_kung_prefix_sum d base items stride (base + i * stride)
        = ∑ j ∈ Finset.Icc 0 i, d (base + j * stride))
    ∧ (items < 2 → brent_kung_prefix_sum d base items stride = d) := by
  constructor
  · exact fun i hi => brent_kung_prefix_sum_correct d base items stride hstride i hi
  · intro h2
    unfold brent_kung_prefix_sum
    rw [if_pos h2]

/-- Concrete strided input sequence for the C3 witness. -/
def c3_input : ℕ → ℚ := fun n => (n : ℚ) * n + 1

/-- C3 witness: the theorem applied at `items = 5`, `stride = 3`,
`base = 2`, element `i = 4`. -/
theorem c3_witness :
    1 ≤ 3 ∧ 4 < 5 ∧
      brent_kung_prefix_sum c3_input 2 5 3 (2 + 4 * 3)
        = ∑ j ∈ Finset.Icc 0 4, c3_input (2 + j * 3) :=
  ⟨by decide, by decide,
    (c3_brent_kung_prefix_sum_correct ℚ c3_input 2 5 3 (by decide)).1 4 (by decide)⟩

/-- C9: for a tile whose extents lie within the configured sizes, every
corner coordinate used by the extraction phase — `x_low`, `x_high`,
`y_low`, `y_high` (`corner_low`/`corner_high` on the respective axis),
and `z_low`, `z_high` when volumetric — falls inside `[0, padsize)` on
its axis, because the work buffer is padded by the combined kernel
radius `kernel_radius = max(avg_var_kernel_radius, alpha_kernel_radius)`
on every active axis.  The first conjunct of each group records that the
`int` subtraction `x_src - alpha_kernel_radius` is non-negative, so the
`ℕ` translation is exact. -/
theorem c9_corner_lookups_in_padded_buffer (A : pixel_region_variance_args) (x y z : ℕ)
    (hx : x < A.size_x) (hy : y < A.size_y) :
    (A.alpha_kernel_radius ≤ corner_src A x ∧ corner_low A x ≤ corner_high A x ∧
      corner_high A x < padsize_x A)
    ∧ (A.alpha_kernel_radius ≤ corner_src A y ∧ corner_low A y ≤ corner_high A y ∧
      corner_high A y < padsize_y A)
    ∧ (A.have_z = true → z < A.size_z →
        A.alpha_kernel_radius ≤ corner_src A z ∧ corner_low A z ≤ corner_high A z ∧
          corner_high A z < padsize_z A) := by
  have haK := alpha_le_kernel A
  refine ⟨⟨?_, ?_, ?_⟩, ⟨?_, ?_, ?_⟩, fun hz hzlt => ⟨?_, ?_, ?_⟩⟩
  · unfold corner_src
    omega
  · exact corner_low_le_high A x
  · exact (corner_bounds_generic A x A.size_x hx).2
  · unfold corner_src
    omega
  · exact corner_low_le_high A y
  · exact (corner_bounds_generic A y A.size_y hy).2
  · unfold corner_src
    omega
  · exact corner_low_le_high A z
  · have := (corner_bounds_generic A z A.size_z hzlt).2
    unfold padsize_z
    rw [hz]
    simpa using this

/-- Concrete volumetric configuration for the C9 witness. -/
def c9_args : pixel_region_variance_args :=
  ⟨20, 20, 20, true, 7, 7, 7, 3, 3, 3, 2, 5⟩

/-- C9 witness: the theorem applied at a concrete volumetric
configuration with differing radii. -/
theorem c9_witness :
    (6 < c9_args.size_x ∧ 6 < c9_args.size_y) ∧
      ((c9_args.alpha_kernel_radius ≤ corner_src c9_args 6 ∧
        corner_low c9_args 6 ≤ corner_high c9_args 6 ∧
        corner_high c9_args 6 < padsize_x c9_args)
      ∧ (c9_args.alpha_kernel_radius ≤ corner_src c9_args 6 ∧
        corner_low c9_args 6 ≤ corner_high c9_args 6 ∧
        corner_high c9_args 6 < padsize_y c9_args)
      ∧ (c9_args.have_z = true → 6 < c9_args.size_z →
          c9_args.alpha_kernel_radius ≤ corner_src c9_args 6 ∧
          corner_low c9_args 6 ≤ corner_high c9_args 6 ∧
          corner_high c9_args 6 < padsize_z c9_args)) :=
  ⟨by decide, c9_corner_lookups_in_padded_buffer c9_args 6 6 6 (by decide) (by decide)⟩

/-- Concrete 2D configuration for the C4 counterexample: a `2 × 2` image
processed as one tile with `statsRadius = alphaRadius = 1`. -/
def c4_args : pixel_region_variance_args :=
  ⟨2, 2, 1, false, 2, 2, 1, 0, 0, 0, 1, 1⟩

/-- C4 counterexample: at pixel `x = 1` of a `2 × 2` image with radius 1,
the `x_high` corner coordinate the extraction uses for its SAT lookups is
`4`, which is NOT within the image bounds `[0, dim_x - 1] = [0, 1]`: the
corner coordinates are not clamped to image bounds (the `astc::clamp`
calls at source lines 561-574 discard their return values), so the claim
that each corner is "independently clamped to image bounds on every side
before the SAT lookup", giving boundary pixels "a smaller effective
window (fewer samples)", is false. -/
theorem c4_corners_not_image_clamped :
    corner_high c4_args 1 = 4 ∧ ¬ corner_high c4_args 1 ≤ c4_args.dim_x - 1 := by
  constructor
  · decide
  · decide

/-- C4 amended: the corner coordinates are not clamped to image bounds
(the source's clamp calls discard their results); they index the padded
work buffer, and every pixel — including boundary pixels — gets a
full-size `(2·alphaRadius+1)²` window whose out-of-image positions are
supplied by the clamp-to-edge sampling: the written average equals the
full window sum of the edge-clamped samples times `avg_var_rsamples`. -/
theorem c4_full_window_edge_clamped (f : ℕ → ℕ → V4) (A : pixel_region_variance_args)
    (x y : ℕ) (hx : x < A.size_x) (hy : y < A.size_y) :
    input_averages f A x y = fun c =>
      window_sum (edge_clamped f A.dim_x A.dim_y)
        ((x : ℤ) + (A.offset_x : ℤ)) ((y : ℤ) + (A.offset_y : ℤ)) A.alpha_kernel_radius c
      * avg_var_rsamples A :=
  input_averages_char f A x y hx hy

/-- Concrete sampled-value function for the C4 witness. -/
def c4_f : ℕ → ℕ → V4 := fun x y => fun _ => (x : ℚ) + 2 * (y : ℚ)

/-- C4 witness: the amended theorem applied at the boundary pixel
`(0, 0)` of the concrete `2 × 2` configuration. -/
theorem c4_witness :
    (0 < c4_args.size_x ∧ 0 < c4_args.size_y) ∧
      input_averages c4_f c4_args 0 0 = fun c =>
        window_sum (edge_clamped c4_f c4_args.dim_x c4_args.dim_y)
          ((0 : ℤ) + (c4_args.offset_x : ℤ)) ((0 : ℤ) + (c4_args.offset_y : ℤ))
          c4_args.alpha_kernel_radius c
        * avg_var_rsamples c4_args :=
  ⟨by decide, c4_full_window_edge_clamped c4_f c4_args 0 0 (by decide) (by decide)⟩

/-- Concrete configuration demonstrating the C1 bug: a `3 × 3` image as
one tile, `statsRadius = avg_var_kernel_radius = 0`,
`alphaRadius = alpha_kernel_radius = 1`. -/
def c1_args : pixel_region_variance_args :=
  ⟨3, 3, 1, false, 3, 3, 1, 0, 0, 0, 0, 1⟩

/-- The constant-1 sampled image. -/
def const_one : ℕ → ℕ → V4 := fun _ _ => fun _ => 1

/-- C1 failing-input evaluation: with `statsRadius = 0` and
`alphaRadius = 1` on a constant-1 image, the extraction's corner
coordinates come from `alpha_kernel_radius` (see
`corner_low`/`corner_high`), so `v1sum` sums the `3 × 3` alpha window
(9 samples of value 1) while the divisor `avg_var_samples` is computed
from the stats radius (`N = 1`): the written average at the centre pixel
is `9`, not the stats-window average `1` the claim requires, and the
written variance is `-72` (not even non-negative). -/
theorem c1_avg_uses_alpha_window_at_stats_count :
    input_averages const_one c1_args 1 1 0 = 9
    ∧ input_variances const_one c1_args 1 1 0 = -72
    ∧ (∀ u v, const_one u v 0 = 1) := by
  have hdx : (1 : ℕ) ≤ c1_args.dim_x := by decide
  have hdy : (1 : ℕ) ≤ c1_args.dim_y := by decide
  have hec : ∀ u v : ℤ, edge_clamped const_one c1_args.dim_x c1_args.dim_y u v
      = fun _ => (1 : ℚ) :=
    edge_clamped_const const_one _ _ _ hdx hdy (fun _ _ _ _ => rfl)
  have hec2 : ∀ u v : ℤ,
      edge_clamped (fun a b => const_one a b * const_one a b) c1_args.dim_x c1_args.dim_y u v
      = fun _ => (1 : ℚ) :=
    edge_clamped_const _ _ _ _ hdx hdy (fun _ _ _ _ => by
      funext ch
      show const_one _ _ ch * const_one _ _ ch = 1
      norm_num [const_one])
  have hsamp : avg_var_samples c1_args = 1 := by
    rw [avg_var_samples, if_neg (by decide), avg_var_kdim]
    norm_num [c1_args]
  have hm1 : mul1 c1_args = 1 := by rw [mul1, if_pos hsamp]
  have hm2 : mul2 c1_args = 1 := by rw [mul2, hsamp, hm1, mul_one]
  have hrs : avg_var_rsamples c1_args = 1 := by
    rw [avg_var_rsamples, hsamp]
    norm_num
  refine ⟨?_, ?_, fun u v => rfl⟩
  · have h := congrFun (input_averages_char const_one c1_args 1 1 (by decide) (by decide)) 0
    rw [h, window_sum_const _ _ hec, hrs, mul_one]
    norm_num [c1_args]
  · have h := congrFun (input_variances_char const_one c1_args 1 1 (by decide) (by decide)) 0
    rw [h, window_sum_const _ _ hec2, window_sum_const _ _ hec, hm1, hm2]
    norm_num [c1_args]

/-- Zero-radius collapse of the three outputs, for an arbitrary sampled
image `f`: with both radii 0 the window is the single (clamped) source
pixel, `N = 1` forces `mul1 = mul2 = 1`, and the variance expression
cancels. -/
theorem zero_radius_outputs (f : ℕ → ℕ → V4)
    (A : pixel_region_variance_args) (x y : ℕ)
    (havg : A.avg_var_kernel_radius = 0) (halp : A.alpha_kernel_radius = 0)
    (hz : A.have_z = false) (hx : x < A.size_x) (hy : y < A.size_y)
    (hdx : x + A.offset_x < A.dim_x) (hdy : y + A.offset_y < A.dim_y) :
    input_averages f A x y = f (x + A.offset_x) (y + A.offset_y)
    ∧ input_variances f A x y = 0
    ∧ input_alpha_averages f A x y
      = f (x + A.offset_x) (y + A.offset_y) 3 := by
  have h0 : avg_var_samples A = 1 := by
    rw [avg_var_samples, if_neg (by simp [hz]), avg_var_kdim, havg]
    norm_num
  have hrs : avg_var_rsamples A = 1 := by
    rw [avg_var_rsamples, h0]
    norm_num
  have hm1 : mul1 A = 1 := by rw [mul1, if_pos h0]
  have hm2 : mul2 A = 1 := by rw [mul2, h0, hm1, mul_one]
  have har : alpha_rsamples A = 1 := by
    rw [alpha_rsamples, if_neg (by simp [hz]), alpha_kdim, halp]
    norm_num
  have hwin : ∀ g : ℕ → ℕ → V4,
      window_sum (edge_clamped g A.dim_x A.dim_y)
        ((x : ℤ) + (A.offset_x : ℤ)) ((y : ℤ) + (A.offset_y : ℤ)) A.alpha_kernel_radius
      = g (x + A.offset_x) (y + A.offset_y) := by
    intro g
    rw [halp, window_sum_zero]
    have hc1 : (x : ℤ) + (A.offset_x : ℤ) = ((x + A.offset_x : ℕ) : ℤ) := by push_cast; ring
    have hc2 : (y : ℤ) + (A.offset_y : ℤ) = ((y + A.offset_y : ℕ) : ℤ) := by push_cast; ring
    rw [hc1, hc2]
    exact edge_clamped_of_lt g A.dim_x A.dim_y _ _ hdx hdy
  refine ⟨?_, ?_, ?_⟩
  · rw [input_averages_char f A x y hx hy]
    funext c
    rw [hwin f, hrs, mul_one]
  · rw [input_variances_char f A x y hx hy]
    funext c
    rw [hwin f, hwin (fun a b => f a b * f a b), hm1, hm2]
    show 1 * (f (x + A.offset_x) (y + A.offset_y) c * f (x + A.offset_x) (y + A.offset_y) c)
      - 1 * (f (x + A.offset_x) (y + A.offset_y) c * f (x + A.offset_x) (y + A.offset_y) c)
      = (0 : V4) c
    show _ = (0 : ℚ)
    ring
  · rw [input_alpha_averages_char f A x y hx hy, hwin f, har, mul_one]

/-- C6: with `statsRadius = alphaRadius = 0` and power exponents 1.0 (so
the sampler's power-curve bypass applies), the written average at every
pixel equals the sampled image value at that pixel, the written variance
is 0 (`N = 1` gives `mul1 = mul2 = 1` and the expression collapses), and
the alpha average equals the sampled alpha value. -/
theorem c6_zero_radius_identity (img : astcenc_image) (swz : astcenc_swizzle)
    (fpow : ℚ → ℚ → ℚ) (f16d : ℕ → ℚ) (A : pixel_region_variance_args) (x y : ℕ)
    (havg : A.avg_var_kernel_radius = 0) (halp : A.alpha_kernel_radius = 0)
    (hz : A.have_z = false) (hx : x < A.size_x) (hy : y < A.size_y)
    (hdx : x + A.offset_x < A.dim_x) (hdy : y + A.offset_y < A.dim_y) :
    input_averages (sampled2d img swz 1 1 fpow f16d) A x y
      = sampled2d img swz 1 1 fpow f16d (x + A.offset_x) (y + A.offset_y)
    ∧ input_variances (sampled2d img swz 1 1 fpow f16d) A x y = 0
    ∧ input_alpha_averages (sampled2d img swz 1 1 fpow f16d) A x y
      = sampled2d img swz 1 1 fpow f16d (x + A.offset_x) (y + A.offset_y) 3 :=
  zero_radius_outputs (sampled2d img swz 1 1 fpow f16d) A x y havg halp hz hx hy hdx hdy

/-- Concrete image for the C6 witness. -/
def c6_img : astcenc_image :=
  { dim_x := 1, dim_y := 1, dim_z := 1, data_type := astcenc_type.F32
    dataU8 := fun _ => 0, dataF16 := fun _ _ _ => 0
    dataF32 := fun _ => ![1/2, 1/3, 1/4, 1/5] }

/-- The identity swizzle. -/
def swz_id : astcenc_swizzle := ⟨0, 1, 2, 3⟩

/-- Concrete zero-radius configuration for the C6 witness. -/
def c6_args : pixel_region_variance_args :=
  ⟨1, 1, 1, false, 1, 1, 1, 0, 0, 0, 0, 0⟩

/-- C6 witness: the theorem applied to a concrete 1×1 F32 image. -/
theorem c6_witness :
    (c6_args.avg_var_kernel_radius = 0 ∧ c6_args.alpha_kernel_radius = 0 ∧
      c6_args.have_z = false ∧ 0 < c6_args.size_x ∧ 0 < c6_args.size_y) ∧
      (input_averages (sampled2d c6_img swz_id 1 1 (fun a _ => a) (fun _ => 0)) c6_args 0 0
        = sampled2d c6_img swz_id 1 1 (fun a _ => a) (fun _ => 0) (0 + c6_args.offset_x)
            (0 + c6_args.offset_y)
      ∧ input_variances (sampled2d c6_img swz_id 1 1 (fun a _ => a) (fun _ => 0)) c6_args 0 0 = 0
      ∧ input_alpha_averages (sampled2d c6_img swz_id 1 1 (fun a _ => a) (fun _ => 0)) c6_args 0 0
        = sampled2d c6_img swz_id 1 1 (fun a _ => a) (fun _ => 0) (0 + c6_args.offset_x)
            (0 + c6_args.offset_y) 3) :=
  ⟨⟨rfl, rfl, rfl, by decide, by decide⟩,
    c6_zero_radius_identity c6_img swz_id (fun a _ => a) (fun _ => 0) c6_args 0 0
      rfl rfl rfl (by decide) (by decide) (by decide) (by decide)⟩

/-- C7: for a constant-color sampled image and a single kernel radius `R`
(used for both windows) bounded by the image dimensions, the written
average equals the constant color and the written variance is 0 at every
pixel, including boundary pixels (clamp-to-edge replication keeps every
window constant). -/
theorem c7_uniform_image_invariance (f : ℕ → ℕ → V4) (A : pixel_region_variance_args)
    (R : ℕ) (c : V4) (x y : ℕ)
    (hA1 : A.avg_var_kernel_radius = R) (hA2 : A.alpha_kernel_radius = R)
    (hz : A.have_z = false) (hdx : 1 ≤ A.dim_x) (hdy : 1 ≤ A.dim_y)
    (hRx : R ≤ A.dim_x) (hRy : R ≤ A.dim_y)
    (hconst : ∀ u v, u < A.dim_x → v < A.dim_y → f u v = c)
    (hx : x < A.size_x) (hy : y < A.size_y) :
    input_averages f A x y = c ∧ input_variances f A x y = 0 := by
  have hec := edge_clamped_const f A.dim_x A.dim_y c hdx hdy hconst
  have hec2 : ∀ u v : ℤ,
      edge_clamped (fun a b => f a b * f a b) A.dim_x A.dim_y u v = c * c :=
    edge_clamped_const _ _ _ _ hdx hdy (fun u v hu hv => by
      show f u v * f u v = c * c
      rw [hconst u v hu hv])
  have hN0 : (0 : ℚ) < ((2 * R + 1 : ℕ) : ℚ) := by
    have : (0 : ℕ) < 2 * R + 1 := by omega
    exact_mod_cast this
  have hsamp : avg_var_samples A = ((2 * R + 1 : ℕ) : ℚ) * ((2 * R + 1 : ℕ) : ℚ) := by
    rw [avg_var_samples, if_neg (by simp [hz]), avg_var_kdim, hA1]
  constructor
  · rw [input_averages_char f A x y hx hy]
    funext ch
    rw [window_sum_const _ c hec _ _ _ ch, hA2, avg_var_rsamples, hsamp]
    field_simp
  · rw [input_variances_char f A x y hx hy]
    funext ch
    rw [window_sum_const _ (c * c) hec2 _ _ _ ch, window_sum_const _ c hec _ _ _ ch, hA2,
      mul2, mul1, hsamp, Pi.mul_apply]
    show ((2 * R + 1 : ℕ) : ℚ) * ((2 * R + 1 : ℕ) : ℚ)
        * (if ((2 * R + 1 : ℕ) : ℚ) * ((2 * R + 1 : ℕ) : ℚ) = 1 then 1
          else 1 / (((2 * R + 1 : ℕ) : ℚ) * ((2 * R + 1 : ℕ) : ℚ)
            * (((2 * R + 1 : ℕ) : ℚ) * ((2 * R + 1 : ℕ) : ℚ) - 1)))
        * (((2 * R + 1 : ℕ) : ℚ) * ((2 * R + 1 : ℕ) : ℚ) * (c ch * c ch))
      - (if ((2 * R + 1 : ℕ) : ℚ) * ((2 * R + 1 : ℕ) : ℚ) = 1 then 1
          else 1 / (((2 * R + 1 : ℕ) : ℚ) * ((2 * R + 1 : ℕ) : ℚ)
            * (((2 * R + 1 : ℕ) : ℚ) * ((2 * R + 1 : ℕ) : ℚ) - 1)))
        * (((2 * R + 1 : ℕ) : ℚ) * ((2 * R + 1 : ℕ) : ℚ) * c ch
          * (((2 * R + 1 : ℕ) : ℚ) * ((2 * R + 1 : ℕ) : ℚ) * c ch))
      = (0 : V4) ch
    set N : ℚ := ((2 * R + 1 : ℕ) : ℚ)
    show N * N * _ * (N * N * (c ch * c ch)) - _ * (N * N * c ch * (N * N * c ch)) = (0 : ℚ)
    by_cases hN1 : N * N = 1
    · rw [if_pos hN1, hN1]
      ring
    · rw [if_neg hN1]
      have h2 : N * N - 1 ≠ 0 := sub_ne_zero.2 hN1
      have h3 : N * N ≠ 0 := by positivity
      field_simp
      ring

/-- Constant sampled image for the C7 witness. -/
def c7_f : ℕ → ℕ → V4 := fun _ _ => ![1/2, 1/3, 1/4, 1/5]

/-- Concrete configuration for the C7 witness: `4 × 4` image, radius 1. -/
def c7_args : pixel_region_variance_args :=
  ⟨4, 4, 1, false, 4, 4, 1, 0, 0, 0, 1, 1⟩

/-- C7 witness: the theorem applied at the boundary pixel `(0, 0)` of a
concrete constant `4 × 4` image with radius 1. -/
theorem c7_witness :
    (c7_args.avg_var_kernel_radius = 1 ∧ c7_args.alpha_kernel_radius = 1 ∧
      1 ≤ c7_args.dim_x ∧ 1 ≤ c7_args.dim_y ∧ 0 < c7_args.size_x ∧ 0 < c7_args.size_y) ∧
      (input_averages c7_f c7_args 0 0 = ![1/2, 1/3, 1/4, 1/5]
      ∧ input_variances c7_f c7_args 0 0 = 0) :=
  ⟨⟨rfl, rfl, by decide, by decide, by decide, by decide⟩,
    c7_uniform_image_invariance c7_f c7_args 1 (![1/2, 1/3, 1/4, 1/5]) 0 0
      rfl rfl rfl (by decide) (by decide) (by decide) (by decide)
      (fun _ _ _ _ => rfl) (by decide) (by decide)⟩

/-- C5 (amended): in the U8 and F32 format paths (compiled with
`USE_2DARRAY = 1`), the sampled work-buffer value is independent of the
`z_src` coordinate — only `(x_src, y_src)` address the raw buffer (the
F32 path even asserts `z_src == 0`); only the F16 path uses `z_src`. -/
theorem c5_z_ignored_u8_f32 (img : astcenc_image) (swz : astcenc_swizzle)
    (rgb_power alpha_power : ℚ) (fpow : ℚ → ℚ → ℚ) (f16d : ℕ → ℚ) (x y z z' : ℕ)
    (h : img.data_type = astcenc_type.U8 ∨ img.data_type = astcenc_type.F32) :
    sample_pixel img swz rgb_power alpha_power fpow f16d x y z
      = sample_pixel img swz rgb_power alpha_power fpow f16d x y z' := by
  rcases h with h | h <;> simp only [sample_pixel, h]

/-- Concrete volumetric U8 image for the C5 counterexample: under the
row-major contiguous 3D layout, layer `z = 0` holds bytes `10` and layer
`z = 1` holds bytes `200`. -/
def c5_img : astcenc_image :=
  { dim_x := 1, dim_y := 1, dim_z := 2, data_type := astcenc_type.U8
    dataU8 := fun i => if i < 4 then 10 else 200
    dataF16 := fun _ _ _ => 0, dataF32 := fun _ => 0 }

/-- The claim's addressing, as a second definition following the claim's
words: the source pixel at `(x_src, y_src, z_src)` of a U8 image under
the row-major contiguous layout of §3 of the spec
(`((z * dim_y + y) * dim_x + x) * 4 + channel`). -/
def u8_pixel3d (img : astcenc_image) (x y z : ℕ) (c : Fin 4) : ℕ :=
  img.dataU8 (((z * img.dim_y + y) * img.dim_x + x) * 4 + (c : ℕ))

/-- C5 counterexample: sampling the U8 volumetric image at
`(x_src, y_src, z_src) = (0, 0, 1)` yields the layer-0 pixel (normalized
bytes `10`), not the pixel addressed by `(0, 0, 1)` (bytes `200`): the z
coordinate does not participate in addressing the raw buffer in the U8
path, refuting the claim for "all three format paths". -/
theorem c5_u8_ignores_z_cex :
    sample_pixel c5_img swz_id 1 1 (fun a _ => a) (fun _ => 0) 0 0 1
      = (fun c => (u8_pixel3d c5_img 0 0 0 c : ℚ) * (1 / 255))
    ∧ ¬ sample_pixel c5_img swz_id 1 1 (fun a _ => a) (fun _ => 0) 0 0 1
      = (fun c => (u8_pixel3d c5_img 0 0 1 c : ℚ) * (1 / 255)) := by
  constructor
  · funext c
    fin_cases c <;>
      simp [sample_pixel, c5_img, swz_id, needs_swz, apply_powers, u8_pixel3d]
  · intro hcon
    have h0 := congrFun hcon 0
    simp [sample_pixel, c5_img, swz_id, needs_swz, apply_powers, u8_pixel3d] at h0

/-- C5 witness: the amended theorem applied to the concrete U8 image with
`z = 0` versus `z = 1`. -/
theorem c5_witness :
    (c5_img.data_type = astcenc_type.U8 ∨ c5_img.data_type = astcenc_type.F32) ∧
      sample_pixel c5_img swz_id 1 1 (fun a _ => a) (fun _ => 0) 0 0 0
        = sample_pixel c5_img swz_id 1 1 (fun a _ => a) (fun _ => 0) 0 0 1 :=
  ⟨Or.inl rfl,
    c5_z_ignored_u8_f32 c5_img swz_id 1 1 (fun a _ => a) (fun _ => 0) 0 0 0 1 (Or.inl rfl)⟩

/-- C10: when exactly one of the two power exponents equals 1.0, the
power path is still applied to all four channels (the `are_powers_1`
bypass requires both to be 1.0), so in a channel whose own exponent is
1.0 a sampled value below `1e-6` is floored to `1e-6` before being
stored (`powf(MAX(v, 1e-6), 1) = MAX(v, 1e-6)`). -/
theorem c10_power_floor_applied (rgb_power alpha_power : ℚ) (fpow : ℚ → ℚ → ℚ)
    (d : V4) (c : Fin 4) (hf : ∀ q : ℚ, fpow q 1 = q)
    (hone : (rgb_power = 1 ∧ alpha_power ≠ 1) ∨ (rgb_power ≠ 1 ∧ alpha_power = 1))
    (hc : ch_power rgb_power alpha_power c = 1) (hd : d c < pow_floor_eps) :
    apply_powers rgb_power alpha_power fpow d c = pow_floor_eps := by
  unfold apply_powers
  rw [if_neg (by
    rcases hone with ⟨h1, h2⟩ | ⟨h1, h2⟩ <;> rintro ⟨ha, hb⟩
    · exact h2 hb
    · exact h1 ha)]
  show fpow (max (d c) pow_floor_eps) (ch_power rgb_power alpha_power c) = pow_floor_eps
  rw [hc, hf, max_eq_right (le_of_lt hd)]

/-- Exact model of the external `powf` at the exponents 1 and 2 (the only
exponents this development instantiates; `powf` is exact there). -/
def qpow (x p : ℚ) : ℚ := if p = 1 then x else if p = 2 then x * x else 1

/-- C10 witness: `rgb_power = 1`, `alpha_power = 2`, red channel value 0
is floored to `1e-6`. -/
theorem c10_witness :
    (((1 : ℚ) = 1 ∧ (2 : ℚ) ≠ 1) ∨ ((1 : ℚ) ≠ 1 ∧ (2 : ℚ) = 1)) ∧
      ch_power 1 2 0 = 1 ∧ (fun _ : Fin 4 => (0 : ℚ)) 0 < pow_floor_eps ∧
      apply_powers 1 2 qpow (fun _ => 0) 0 = pow_floor_eps :=
  ⟨Or.inl ⟨rfl, by norm_num⟩, by simp [ch_power], by norm_num [pow_floor_eps],
    c10_power_floor_applied 1 2 qpow (fun _ => 0) 0 (fun q => by simp [qpow])
      (Or.inl ⟨rfl, by norm_num⟩) (by simp [ch_power]) (by norm_num [pow_floor_eps])⟩

/-! ### C8: swizzle swap machinery -/

/-- Build a swizzle from its channel-selector function. -/
def swz_of (g : Fin 4 → Fin 6) : astcenc_swizzle := ⟨g 0, g 1, g 2, g 3⟩

/-- The swizzle with output channels `i` and `j` exchanged. -/
def swz_swap (i j : Fin 4) (swz : astcenc_swizzle) : astcenc_swizzle :=
  swz_of (fun c => swz_ch swz (Equiv.swap i j c))

theorem swz_ch_of (g : Fin 4 → Fin 6) : swz_ch (swz_of g) = g := by
  funext c
  fin_cases c <;> rfl

theorem select_eq {α : Type} (data : Fin 6 → α) (swz : astcenc_swizzle) :
    (![data swz.r, data swz.g, data swz.b, data swz.a] : Fin 4 → α)
      = fun c => data (swz_ch swz c) := by
  funext c
  fin_cases c <;> rfl

theorem ident_select {α : Type} (r g b a z o : α) (swz : astcenc_swizzle)
    (h : ¬ needs_swz swz) :
    (![r, g, b, a] : Fin 4 → α)
      = fun c => (![r, g, b, a, z, o] : Fin 6 → α) (swz_ch swz c) := by
  unfold needs_swz at h
  push_neg at h
  obtain ⟨h1, h2, h3, h4⟩ := h
  funext c
  fin_cases c <;> simp [swz_ch, h1, h2, h3, h4]

/-- The U8 branch's swizzle selection, with and without the identity fast
path, as one selector function. -/
theorem u8_rgba (swz : astcenc_swizzle) (r g b a : ℕ) :
    (if needs_swz swz then
        (![(![r, g, b, a, 0, 255] : Fin 6 → ℕ) swz.r,
           (![r, g, b, a, 0, 255] : Fin 6 → ℕ) swz.g,
           (![r, g, b, a, 0, 255] : Fin 6 → ℕ) swz.b,
           (![r, g, b, a, 0, 255] : Fin 6 → ℕ) swz.a] : Fin 4 → ℕ)
      else ![r, g, b, a])
      = fun c => (![r, g, b, a, 0, 255] : Fin 6 → ℕ) (swz_ch swz c) := by
  by_cases h : needs_swz swz
  · rw [if_pos h]
    exact select_eq _ swz
  · rw [if_neg h]
    exact ident_select r g b a 0 255 swz h

/-- The F16 branch's swizzle selection as one selector function. -/
theorem f16_rgba (swz : astcenc_swizzle) (data : Fin 6 → ℕ) (f16d : ℕ → ℚ) :
    (![f16d (data swz.r), f16d (data swz.g), f16d (data swz.b), f16d (data swz.a)] : V4)
      = fun c => f16d (data (swz_ch swz c)) := by
  funext c
  fin_cases c <;> rfl

/-- The F32 branch's swizzle selection, with and without the identity
fast path, as one selector function. -/
theorem f32_d (swz : astcenc_swizzle) (dv : V4) :
    (if needs_swz swz then
        (![(![dv 0, dv 1, dv 2, dv 3, 0, 1] : Fin 6 → ℚ) swz.r,
           (![dv 0, dv 1, dv 2, dv 3, 0, 1] : Fin 6 → ℚ) swz.g,
           (![dv 0, dv 1, dv 2, dv 3, 0, 1] : Fin 6 → ℚ) swz.b,
           (![dv 0, dv 1, dv 2, dv 3, 0, 1] : Fin 6 → ℚ) swz.a] : V4)
      else dv)
      = fun c => (![dv 0, dv 1, dv 2, dv 3, 0, 1] : Fin 6 → ℚ) (swz_ch swz c) := by
  by_cases h : needs_swz swz
  · rw [if_pos h]
    exact select_eq _ swz
  · rw [if_neg h]
    unfold needs_swz at h
    push_neg at h
    obtain ⟨h1, h2, h3, h4⟩ := h
    funext c
    fin_cases c <;> simp [swz_ch, h1, h2, h3, h4]

theorem ch_power_swap (rp ap : ℚ) (i j : Fin 4) (hpow : ch_power rp ap i = ch_power rp ap j)
    (c : Fin 4) : ch_power rp ap (Equiv.swap i j c) = ch_power rp ap c := by
  rcases eq_or_ne c i with rfl | hci
  · rw [Equiv.swap_apply_left]
    exact hpow.symm
  rcases eq_or_ne c j with rfl | hcj
  · rw [Equiv.swap_apply_right]
    exact hpow
  · rw [Equiv.swap_apply_of_ne_of_ne hci hcj]

theorem apply_powers_swap (rp ap : ℚ) (fpow : ℚ → ℚ → ℚ) (i j : Fin 4)
    (hpow : ch_power rp ap i = ch_power rp ap j) (d : V4) :
    apply_powers rp ap fpow (fun c => d (Equiv.swap i j c))
      = fun c => apply_powers rp ap fpow d (Equiv.swap i j c) := by
  unfold apply_powers
  by_cases h : rp = 1 ∧ ap = 1
  · rw [if_pos h, if_pos h]
  · rw [if_neg h, if_neg h]
    funext c
    rw [ch_power_swap rp ap i j hpow c]

/-- Swapping two output channels in the swizzle swaps the two channels of
the sampled value, provided the two channels have the same power
exponent. -/
theorem sample_pixel_swap (img : astcenc_image) (swz : astcenc_swizzle) (rp ap : ℚ)
    (fpow : ℚ → ℚ → ℚ) (f16d : ℕ → ℚ) (i j : Fin 4)
    (hpow : ch_power rp ap i = ch_power rp ap j) (x y z : ℕ) :
    sample_pixel img (swz_swap i j swz) rp ap fpow f16d x y z
      = fun c => sample_pixel img swz rp ap fpow f16d x y z (Equiv.swap i j c) := by
  cases htype : img.data_type
  case U8 =>
    simp only [sample_pixel, htype, u8_rgba, swz_swap, swz_ch_of]
    exact apply_powers_swap rp ap fpow i j hpow
      (fun c => ((![img.dataU8 ((y * img.dim_x + x) * 4),
        img.dataU8 ((y * img.dim_x + x) * 4 + 1), img.dataU8 ((y * img.dim_x + x) * 4 + 2),
        img.dataU8 ((y * img.dim_x + x) * 4 + 3), 0, 255] : Fin 6 → ℕ)
          (swz_ch swz c) : ℚ) * (1 / 255))
  case F16 =>
    simp only [sample_pixel, htype, f16_rgba, swz_swap, swz_ch_of]
    exact apply_powers_swap rp ap fpow i j hpow
      (fun c => f16d ((![img.dataF16 z y (4 * x), img.dataF16 z y (4 * x + 1),
        img.dataF16 z y (4 * x + 2), img.dataF16 z y (4 * x + 3), 0, 0x3C00] : Fin 6 → ℕ)
          (swz_ch swz c)))
  case F32 =>
    simp only [sample_pixel, htype, f32_d, swz_swap, swz_ch_of]
    exact apply_powers_swap rp ap fpow i j hpow
      (fun c => (![img.dataF32 (y * img.dim_x + x) 0, img.dataF32 (y * img.dim_x + x) 1,
        img.dataF32 (y * img.dim_x + x) 2, img.dataF32 (y * img.dim_x + x) 3, 0, 1] :
          Fin 6 → ℚ) (swz_ch swz c))

/-- Channelwise reindexing of `v1sum`: if `f`'s channel `c` is `h`'s
channel `pi c` pointwise, the same holds of the four-corner sums. -/
theorem v1sum_comp (f h : ℕ → ℕ → V4) (pi : Fin 4 → Fin 4)
    (hfh : ∀ a b c, f a b c = h a b (pi c)) (A : pixel_region_variance_args)
    (x y : ℕ) (hx : x < A.size_x) (hy : y < A.size_y) (ch : Fin 4) :
    v1sum f A x y ch = v1sum h A x y (pi ch) := by
  rw [v1sum_box f A x y hx hy, v1sum_box h A x y hx hy,
    Finset.sum_apply, Finset.sum_apply]
  refine Finset.sum_congr rfl fun u _ => ?_
  rw [Finset.sum_apply, Finset.sum_apply]
  exact Finset.sum_congr rfl fun t _ => hfh _ _ ch

theorem v2sum_comp (f h : ℕ → ℕ → V4) (pi : Fin 4 → Fin 4)
    (hfh : ∀ a b c, f a b c = h a b (pi c)) (A : pixel_region_variance_args)
    (x y : ℕ) (hx : x < A.size_x) (hy : y < A.size_y) (ch : Fin 4) :
    v2sum f A x y ch = v2sum h A x y (pi ch) := by
  rw [v2sum_eq f A x y, v2sum_eq h A x y]
  exact v1sum_comp _ _ pi
    (fun a b c => by rw [Pi.mul_apply, Pi.mul_apply, hfh a b c]) A x y hx hy ch

/-- C8 (amended): swapping the selectors of channels `i` and `j` in the
swizzle produces averages and variances that equal the original run's
outputs with channels `i` and `j` swapped at every pixel (all other
channels unchanged — `Equiv.swap` fixes them), provided channels `i` and
`j` carry the same power exponent (always the case for pairs among
r, g, b; for pairs involving a it requires `rgb_power = alpha_power`). -/
theorem c8_swizzle_swap_equal_powers (img : astcenc_image) (swz : astcenc_swizzle)
    (rp ap : ℚ) (fpow : ℚ → ℚ → ℚ) (f16d : ℕ → ℚ) (i j : Fin 4)
    (hpow : ch_power rp ap i = ch_power rp ap j)
    (A : pixel_region_variance_args) (x y : ℕ) (hx : x < A.size_x) (hy : y < A.size_y) :
    (input_averages (sampled2d img (swz_swap i j swz) rp ap fpow f16d) A x y
       = fun c => input_averages (sampled2d img swz rp ap fpow f16d) A x y (Equiv.swap i j c))
    ∧ (input_variances (sampled2d img (swz_swap i j swz) rp ap fpow f16d) A x y
       = fun c => input_variances (sampled2d img swz rp ap fpow f16d) A x y
          (Equiv.swap i j c)) := by
  have hfh : ∀ a b c, sampled2d img (swz_swap i j swz) rp ap fpow f16d a b c
      = sampled2d img swz rp ap fpow f16d a b (Equiv.swap i j c) := by
    intro a b c
    show sample_pixel img (swz_swap i j swz) rp ap fpow f16d a b 0 c
      = sample_pixel img swz rp ap fpow f16d a b 0 (Equiv.swap i j c)
    rw [sample_pixel_swap img swz rp ap fpow f16d i j hpow a b 0]
  constructor
  · funext c
    unfold input_averages
    rw [v1sum_comp (sampled2d img (swz_swap i j swz) rp ap fpow f16d)
      (sampled2d img swz rp ap fpow f16d) (fun c => Equiv.swap i j c) hfh A x y hx hy c]
  · funext c
    unfold input_variances
    rw [v1sum_comp (sampled2d img (swz_swap i j swz) rp ap fpow f16d)
      (sampled2d img swz rp ap fpow f16d) (fun c => Equiv.swap i j c) hfh A x y hx hy c,
      v2sum_comp (sampled2d img (swz_swap i j swz) rp ap fpow f16d)
      (sampled2d img swz rp ap fpow f16d) (fun c => Equiv.swap i j c) hfh A x y hx hy c]

/-- Concrete `1 × 1` F32 image for C8, with an asymmetric pixel
`(2, 0, 0, 5)`. -/
def c8_img : astcenc_image :=
  { dim_x := 1, dim_y := 1, dim_z := 1, data_type := astcenc_type.F32
    dataU8 := fun _ => 0, dataF16 := fun _ _ _ => 0
    dataF32 := fun _ => ![2, 0, 0, 5] }

/-- Concrete radius-0 configuration for C8. -/
def c8_args : pixel_region_variance_args :=
  ⟨1, 1, 1, false, 1, 1, 1, 0, 0, 0, 0, 0⟩

/-- C8 counterexample: with `rgb_power = 2`, `alpha_power = 1`, swapping
the r and a selectors of the identity swizzle does NOT produce outputs
with the r and a channels swapped: the swizzle-swapped run's red average
is `powf(5, 2) = 25` (the value lands in a channel with a different
power exponent) while the channel-swap of the original run's output is
`powf(5, 1) = 5`.  The claim, which quantifies over every image and
every pair of channels without restricting the exponents, is false. -/
theorem c8_swizzle_swap_powers_cex :
    input_averages (sampled2d c8_img (swz_swap 0 3 swz_id) 2 1 qpow (fun _ => 0)) c8_args 0 0 0
      ≠ input_averages (sampled2d c8_img swz_id 2 1 qpow (fun _ => 0)) c8_args 0 0
          (Equiv.swap 0 3 0) := by
  have hA := (zero_radius_outputs
    (sampled2d c8_img (swz_swap 0 3 swz_id) 2 1 qpow (fun _ => 0)) c8_args 0 0
    rfl rfl rfl (by decide) (by decide) (by decide) (by decide)).1
  have hB := (zero_radius_outputs
    (sampled2d c8_img swz_id 2 1 qpow (fun _ => 0)) c8_args 0 0
    rfl rfl rfl (by decide) (by decide) (by decide) (by decide)).1
  rw [hA, hB]
  have hsw : swz_swap 0 3 swz_id = ⟨3, 1, 2, 0⟩ := by decide
  have hch : Equiv.swap (0 : Fin 4) 3 0 = 3 := by decide
  rw [hsw, hch]
  have hL : sampled2d c8_img ⟨3, 1, 2, 0⟩ 2 1 qpow (fun _ => 0)
      (0 + c8_args.offset_x) (0 + c8_args.offset_y) 0 = 25 := by
    show sample_pixel c8_img ⟨3, 1, 2, 0⟩ 2 1 qpow (fun _ => 0)
      (0 + c8_args.offset_x) (0 + c8_args.offset_y) 0 0 = 25
    simp only [sample_pixel, c8_img, c8_args, apply_powers, ch_power, needs_swz]
    rw [if_neg (by norm_num)]
    show qpow (max ((![(2:ℚ), 0, 0, 5, 0, 1] : Fin 6 → ℚ) (3 : Fin 6)) pow_floor_eps)
      (if (0 : Fin 4) = 3 then 1 else 2) = 25
    rw [if_neg (by decide)]
    norm_num [pow_floor_eps, qpow]
  have hR : sampled2d c8_img swz_id 2 1 qpow (fun _ => 0)
      (0 + c8_args.offset_x) (0 + c8_args.offset_y) 3 = 5 := by
    show sample_pixel c8_img swz_id 2 1 qpow (fun _ => 0)
      (0 + c8_args.offset_x) (0 + c8_args.offset_y) 0 3 = 5
    simp only [sample_pixel, c8_img, c8_args, apply_powers, ch_power, needs_swz, swz_id]
    rw [if_neg (by norm_num)]
    show qpow (max ((![(2:ℚ), 0, 0, 5] : Fin 4 → ℚ) (3 : Fin 4)) pow_floor_eps)
      (if (3 : Fin 4) = 3 then 1 else 2) = 5
    norm_num [pow_floor_eps, qpow]
  rw [hL, hR]
  norm_num

/-- C8 witness: the amended theorem applied with both exponents 1 to the
concrete image, channels r and a. -/
theorem c8_witness :
    ch_power (1 : ℚ) 1 0 = ch_power 1 1 3 ∧ 0 < c8_args.size_x ∧ 0 < c8_args.size_y ∧
      ((input_averages (sampled2d c8_img (swz_swap 0 3 swz_id) 1 1 qpow (fun _ => 0)) c8_args 0 0
        = fun c => input_averages (sampled2d c8_img swz_id 1 1 qpow (fun _ => 0)) c8_args 0 0
            (Equiv.swap 0 3 c))
      ∧ (input_variances (sampled2d c8_img (swz_swap 0 3 swz_id) 1 1 qpow (fun _ => 0)) c8_args 0 0
        = fun c => input_variances (sampled2d c8_img swz_id 1 1 qpow (fun _ => 0)) c8_args 0 0
            (Equiv.swap 0 3 c))) :=
  ⟨by simp [ch_power], by decide, by decide,
    c8_swizzle_swap_equal_powers c8_img swz_id 1 1 qpow (fun _ => 0) 0 3
      (by simp [ch_power]) c8_args 0 0 (by decide) (by decide)⟩

/-- C2 failing-input evaluation: for a volumetric `16 × 16 × 17` image,
the setup computes `step_y = step_z = 16`, `y_tasks = 1`, `z_tasks = 2`,
so two work units exist; decoding unit `base = 1` in the worker loop
computes `z = (1 / 1) * 16 = 16` and then
`y = (1 - z * y_tasks) * step_y = (1 - 16) * 16 = -240` — the code
subtracts the already-`step_z`-scaled `z`, so the tile offset is
negative and the tiles cannot partition the image (the intended decode
is `y = (base % y_tasks) * step_y = 0`). -/
theorem c2_task_decode_negative_offset :
    sched_have_z 17 = true
    ∧ z_tasks 17 (max_blk_size_z 17 (sched_have_z 17))
        * y_tasks 16 (max_blk_size_xy (sched_have_z 17)) = 2
    ∧ task_z 1 (y_tasks 16 (max_blk_size_xy (sched_have_z 17)))
        (max_blk_size_z 17 (sched_have_z 17)) = 16
    ∧ task_y 1 (y_tasks 16 (max_blk_size_xy (sched_have_z 17)))
        (max_blk_size_xy (sched_have_z 17)) (max_blk_size_z 17 (sched_have_z 17)) = -240 := by
  refine ⟨rfl, ?_, ?_, ?_⟩ <;> decide

end AstcVariance
